import Mathlib

/-!
Verification of the optimization engine of the 3-dimensional case picking
solver (`src/solver.py`).  The Python module is embedded shallowly:

* numeric quantities (weights, volumes, distances, savings, strengths) are
  modelled as `Int`;
* order lines are identified by their index in the solver's order-line list,
  pallets by their index in a monotonically growing store of pallets (object
  identity in Python becomes index equality here);
* the mutable `orderline.pallet` back-reference becomes an explicit binding
  function from order-line index to pallet index;
* the external packing subroutine `dubePacker` (module `packing`, not part of
  this repository's source) is an oracle parameter;
* `random.random()` draws feeding `_bra` are externalized: the integer index
  `int(log(u, 1 - beta)) % len(arr)` computed from each float draw `u` is
  abstracted to a stream of raw natural indexes, and the real-valued selection
  law is modelled separately with `Real.logb`.
-/

namespace CasePicking

/-- A physical case; the solver code only reads the stacking-strength
attribute (the sequential baseline's sort key). -/
structure Case where
  strength : Int
deriving DecidableEq, Inhabited

/-- An order line: total weight, total volume, and the index of its warehouse
location.  Order lines are identified by their index in the solver's list. -/
structure OrderLine where
  weight : Int
  volume : Int
  location : Nat
deriving DecidableEq, Inhabited

/-- A routing edge.  In the source an edge's `origin`/`end` carry the mutable
`pallet` attribute of the order line sitting at that location; here they are
the indexes of those order lines.  `saving` is the precomputed saving value. -/
structure Edge where
  origin : Nat
  end_ : Nat
  saving : Int
deriving DecidableEq, Inhabited

/-- `_bra(array, beta)`: biased-randomised selection.  Each loop iteration
computes `idx = int(log(random.random(), 1.0 - beta)) % len(arr)` and pops
`arr[idx]`.  The raw (pre-modulo) integer computed from the random draw and
`beta` is supplied by the stream `u`; the loop runs exactly `length` times. -/
def braPermAux [Inhabited α] : Nat → List α → (Nat → Nat) → List α
  | 0, _, _ => []
  | k + 1, arr, u =>
    arr.getD (u 0 % arr.length) default ::
      braPermAux k (arr.eraseIdx (u 0 % arr.length)) (fun n => u (n + 1))

/-- The full sequence yielded by `_bra` over `arr` for the raw-index
stream `u` (one raw index per iteration). -/
def braPerm [Inhabited α] (arr : List α) (u : Nat → Nat) : List α :=
  braPermAux arr.length arr u

lemma getD_cons_eraseIdx_perm [Inhabited α] (arr : List α) (i : Nat)
    (h : i < arr.length) :
    (arr.getD i default :: arr.eraseIdx i).Perm arr := by
  rw [List.getD_eq_getElem arr default h, List.eraseIdx_eq_take_drop_succ]
  have h2 : arr.take i ++ arr[i] :: arr.drop (i + 1) = arr := by
    rw [List.getElem_cons_drop, List.take_append_drop]
  have h1 : List.Perm (arr[i] :: (arr.take i ++ arr.drop (i + 1)))
      (arr.take i ++ arr[i] :: arr.drop (i + 1)) := List.perm_middle.symm
  rw [h2] at h1
  exact h1

lemma braPermAux_perm [Inhabited α] :
    ∀ (n : Nat) (arr : List α) (u : Nat → Nat), arr.length = n →
      (braPermAux n arr u).Perm arr := by
  intro n
  induction n with
  | zero =>
    intro arr u h
    rw [List.length_eq_zero] at h
    subst h
    simp [braPermAux]
  | succ k ih =>
    intro arr u h
    have hpos : 0 < arr.length := by omega
    have hidx : u 0 % arr.length < arr.length := Nat.mod_lt _ hpos
    have hlen : (arr.eraseIdx (u 0 % arr.length)).length = k := by
      have := List.length_eraseIdx_add_one hidx
      omega
    exact List.Perm.trans
      (List.Perm.cons _ (ih (arr.eraseIdx (u 0 % arr.length)) _ hlen))
      (getD_cons_eraseIdx_perm arr _ hidx)

lemma braPerm_perm [Inhabited α] (arr : List α) (u : Nat → Nat) :
    (braPerm arr u).Perm arr :=
  braPermAux_perm arr.length arr u rfl

lemma braPermAux_eq_cons [Inhabited α] (arr : List α) (u : Nat → Nat) (k : Nat)
    (hk : arr.length = k + 1) :
    braPermAux arr.length arr u =
      arr.getD (u 0 % arr.length) default ::
        braPermAux (arr.eraseIdx (u 0 % arr.length)).length
          (arr.eraseIdx (u 0 % arr.length)) (fun n => u (n + 1)) := by
  have hidx : u 0 % arr.length < arr.length := Nat.mod_lt _ (by omega)
  have hL : (arr.eraseIdx (u 0 % arr.length)).length = k := by
    have := List.length_eraseIdx_add_one hidx
    omega
  rw [hL]
  conv_lhs => rw [hk]
  rfl

/-- The raw index computed by `_bra` from one uniform draw `u` and `beta`:
`int(log(u, 1.0 - beta))`.  Floats are idealized as reals; for `u`, `beta`
in the open interval (0,1) the logarithm is nonnegative, so Python's
truncation toward zero agrees with the floor. -/
noncomputable def braDraw (beta u : ℝ) : Nat :=
  (⌊Real.logb (1 - beta) u⌋).toNat

/-- `_bra` driven by real-valued uniform draws `us` (one per iteration):
the raw-index computation is composed with the draw stream. -/
noncomputable def braPermR [Inhabited α] (beta : ℝ) (arr : List α)
    (us : Nat → ℝ) : List α :=
  braPermAux arr.length arr (fun n => braDraw beta (us n))

/-- A pallet.  Modelled from the spec for the external `packing.Pallet`
class (not part of this repository's source): fixed `maxVolume`/`maxWeight`
taken from the run's pallet configuration, accumulated weight and volume,
the set of hosted order lines (by index), the packed cases, the layer
assignment (an insertion-ordered mapping from hosted order-line index to
vertical layer index) and the `active` flag used by the sequential
baseline. -/
structure Pallet where
  maxVolume : Int
  maxWeight : Int
  weight : Int := 0
  volume : Int := 0
  orderlines : Finset Nat := ∅
  cases : List Case := []
  layersMap : List (Nat × Nat) := []
  active : Bool := true
deriving DecidableEq

/-- Default pallet used for out-of-range store lookups (never reached under
the proved well-formedness invariants). -/
def dummyPallet : Pallet :=
  { maxVolume := 0, maxWeight := 0 }

/-- Default order line for out-of-range lookups. -/
def dummyLine : OrderLine :=
  { weight := 0, volume := 0, location := 0 }

/-- The result triple of `dubePacker`: the success flag, the packed cases
and the produced layer assignment. -/
structure PackResult where
  done : Bool
  packedCases : List Case
  layersMap : List (Nat × Nat)

/-- The external `dubePacker` feasibility oracle (module `packing`, outside
this repository's source).  `packLine` is the call with an order line as
payload (first argument: receiving pallet, second: the order line's index),
`packPallet` the call with a whole pallet as payload.  It is a pure
function of its arguments, as required by the spec's oracle contract. -/
structure Oracle where
  packLine : Pallet → Nat → PackResult
  packPallet : Pallet → Pallet → PackResult

/-- The problem instance held by `Solver.__init__`: the order lines, the
edges and the pallet capacity configuration.  The external `Pallet` class
turns `pallet_size` into a volume capacity; here the two capacity bounds
are carried directly. -/
structure Solver where
  orderlines : List OrderLine
  edges : List Edge
  palletMaxVolume : Int
  palletMaxWeight : Int

/-- A pallet freshly constructed by `Pallet(pallet_size, pallet_max_weight)`. -/
def freshPallet (S : Solver) : Pallet :=
  { maxVolume := S.palletMaxVolume, maxWeight := S.palletMaxWeight }

/-- The mutable state threaded through `heuristic` / `sequential`:
`store` holds every pallet created so far (a pallet's index is its
identity), `workList` is the Python `palletsList` (pallet indexes), and
`binding` is the `orderline.pallet` back-reference (order-line index to
pallet index). -/
structure HState where
  store : List Pallet
  workList : List Nat
  binding : Nat → Nat

/-- Store lookup by pallet index. -/
def getP (s : HState) (id : Nat) : Pallet :=
  s.store.getD id dummyPallet

/-- Weight of the order line with index `i`. -/
def lineW (S : Solver) (i : Nat) : Int :=
  (S.orderlines.getD i dummyLine).weight

/-- Volume of the order line with index `i`. -/
def lineV (S : Solver) (i : Nat) : Int :=
  (S.orderlines.getD i dummyLine).volume

/-- One iteration of the construction loop, success case: a fresh pallet is
packed with the single order line `p.1` (its data is `p.2`), its weight,
volume, case list, layer map and order-line set are filled in, the order
line's pallet reference is set, and the pallet is appended to the working
list. -/
def addLine (S : Solver) (O : Oracle) (s : HState) (p : Nat × OrderLine) : HState :=
  let r := O.packLine (freshPallet S) p.1
  let pid := s.store.length
  { store := s.store ++
      [{ freshPallet S with
          cases := r.packedCases
          layersMap := r.layersMap
          weight := p.2.weight
          volume := p.2.volume
          orderlines := {p.1} }]
    workList := s.workList ++ [pid]
    binding := fun j => if j = p.1 then pid else s.binding j }

/-- The construction loop of `heuristic` / `sequential`: one fresh pallet
per order line, with `assert done == True` modelled by aborting with `none`
when the oracle reports failure. -/
def buildInitAux (S : Solver) (O : Oracle) :
    HState → List (Nat × OrderLine) → Option HState
  | s, [] => some s
  | s, p :: rest =>
    if (O.packLine (freshPallet S) p.1).done then
      buildInitAux S O (addLine S O s p) rest
    else
      none

/-- The dummy solution built at the start of `heuristic` and `sequential`:
one pallet per order line. -/
def buildInit (S : Solver) (O : Oracle) : Option HState :=
  buildInitAux S O ⟨[], [], fun _ => 0⟩ S.orderlines.enum

/-- The pallet holding the single order line `i` (data `line`) right after
construction. -/
def initPallet (S : Solver) (O : Oracle) (i : Nat) (line : OrderLine) : Pallet :=
  { freshPallet S with
      cases := (O.packLine (freshPallet S) i).packedCases
      layersMap := (O.packLine (freshPallet S) i).layersMap
      weight := line.weight
      volume := line.volume
      orderlines := {i} }

/-- Closed form of the state after a fully successful construction loop. -/
def initState (S : Solver) (O : Oracle) : HState :=
  { store := S.orderlines.enum.map fun p => initPallet S O p.1 p.2
    workList := List.range S.orderlines.length
    binding := fun i => if i < S.orderlines.length then i else 0 }

/-- The success branch of a merge attempt: pallet `h` absorbs pallet `g`
(oracle result `r`), `g` is removed from the working list, and every order
line formerly on `g` is repointed to `h`. -/
def mergeInto (s : HState) (h g : Nat) (r : PackResult) : HState :=
  let hostP := getP s h
  let hostedP := getP s g
  { store := s.store.set h
      { hostP with
          cases := r.packedCases
          layersMap := r.layersMap
          weight := hostP.weight + hostedP.weight
          volume := hostP.volume + hostedP.volume
          orderlines := hostP.orderlines ∪ hostedP.orderlines }
    workList := s.workList.erase g
    binding := fun j => if j ∈ hostedP.orderlines then h else s.binding j }

/-- The body of the merge sweep of `heuristic` for one drawn edge: resolve
the two endpoints' current pallets, skip if they coincide or if the
combined volume or weight exceeds the host's capacity, try the oracle on
the forward orientation and, on failure, retry once with host and hosted
swapped. -/
def mergeStep (O : Oracle) (s : HState) (e : Edge) : HState :=
  let host := s.binding e.origin
  let hosted := s.binding e.end_
  if host = hosted then s
  else
    let hostP := getP s host
    let hostedP := getP s hosted
    if hostP.volume + hostedP.volume > hostP.maxVolume then s
    else if hostP.weight + hostedP.weight > hostP.maxWeight then s
    else
      let r := O.packPallet hostP hostedP
      if r.done then mergeInto s host hosted r
      else
        let r2 := O.packPallet hostedP hostP
        if r2.done then mergeInto s hosted host r2
        else s

/-- `sorted(self.edges, key=operator.attrgetter("saving"), reverse=True)`:
the savings list, sorted by descending saving (stable, like Python's
`sorted`). -/
def savingsList (S : Solver) : List Edge :=
  S.edges.mergeSort fun a b => decide (b.saving ≤ a.saving)

/-- The state at the end of the merge sweep of `heuristic`. -/
def heurFinal (S : Solver) (O : Oracle) (u : Nat → Nat) (s0 : HState) : HState :=
  (braPerm (savingsList S) u).foldl (mergeStep O) s0

/-- `Solver.heuristic(beta)`.  The bias parameter and the uniform draws
enter only through the biased selector; they are abstracted to the raw
index stream `u` (see `braPerm`).  Returns `none` when the construction
step's assertion fails, otherwise the final working list of pallets. -/
def heuristic (S : Solver) (O : Oracle) (u : Nat → Nat) : Option (List Pallet) :=
  match buildInit S O with
  | none => none
  | some s0 =>
    let s := heurFinal S O u s0
    some (s.workList.map fun id => getP s id)

/-- `sorted(pallet.layersMap.items(), key=operator.itemgetter(1))`: the
layer-assignment entries sorted by layer index ascending; `mergeSort` is
stable, so ties keep the mapping's insertion order, as Python's `sorted`
does. -/
def sortByLayer (lm : List (Nat × Nat)) : List (Nat × Nat) :=
  lm.mergeSort fun a b => decide (a.2 ≤ b.2)

/-- Keys in first-occurrence order, duplicates dropped: the effect of
Python's `dict(...)` rebuild (a `dict`'s keys keep their first insertion
position). -/
def dedupKeys : List Nat → List Nat
  | [] => []
  | k :: ks => k :: dedupKeys (ks.filter fun j => j ≠ k)
termination_by l => l.length
decreasing_by
  simp only [List.length_cons]
  exact Nat.lt_succ_of_le (List.length_filter_le _ _)

/-- The visiting order derived from a pallet's layer assignment:
`tuple(dict(sorted(pallet.layersMap.items(), key=itemgetter(1))).keys())`. -/
def visitOrder (p : Pallet) : List Nat :=
  dedupKeys ((sortByLayer p.layersMap).map Prod.fst)

/-- `sum(dists[i.location, j.location] for i, j in zip(seq[:-1], seq[1:]))`:
the sum of distances along consecutive pairs of the visiting order. -/
def adjSum (dists : Nat → Nat → Int) (loc : Nat → Nat) : List Nat → Int
  | a :: b :: rest => dists (loc a) (loc b) + adjSum dists loc (b :: rest)
  | _ => 0

/-- One pallet's contribution to `getCost`.  `loc` resolves an order-line
index to its `.location` attribute.  An empty visiting order raises an
`IndexError` in the source, modelled by `none`. -/
def palletCost (dists : Nat → Nat → Int) (loc : Nat → Nat) (p : Pallet) :
    Option Int :=
  match visitOrder p with
  | [] => none
  | v :: vs =>
    some (dists 0 (loc v) + dists (loc ((v :: vs).getLast (List.cons_ne_nil v vs))) 0 +
      adjSum dists loc (v :: vs))

/-- `Solver.getCost(solution, dists)`: the total walked distance, summed
over the pallets of the solution. -/
def getCost (dists : Nat → Nat → Int) (loc : Nat → Nat)
    (solution : List Pallet) : Option Int :=
  solution.foldl
    (fun acc p => do
      let a ← acc
      let c ← palletCost dists loc p
      pure (a + c))
    (some 0)

/-- The visiting order as worded by the spec: the layer-assignment entries
sorted by layer index ascending, ties broken by the mapping's insertion
order. -/
def visitOrderSpec (p : Pallet) : List Nat :=
  (sortByLayer p.layersMap).map Prod.fst

/-- Modelled from the spec: the reference per-pallet route cost,
`distance(depot, first.location) + distance(last.location, depot) + sum of
consecutive distances along the ordered sequence`. -/
def palletCostSpec (dists : Nat → Nat → Int) (loc : Nat → Nat) (p : Pallet) : Int :=
  match visitOrderSpec p with
  | [] => 0
  | v :: vs =>
    dists 0 (loc v) + dists (loc ((v :: vs).getLast (List.cons_ne_nil v vs))) 0 +
      adjSum dists loc (v :: vs)

/-- Modelled from the spec: the reference total cost, summed across
pallets. -/
def getCostSpec (dists : Nat → Nat → Int) (loc : Nat → Nat)
    (solution : List Pallet) : Int :=
  (solution.map (palletCostSpec dists loc)).sum

/-- The sort key of the sequential baseline:
`palletsList.sort(key=lambda i: i.cases[0].strength, reverse=True)`.
An empty case list would raise an `IndexError` in the source; it is mapped
to `0` here — no verified statement depends on the sort order. -/
def seqSortKey (p : Pallet) : Int :=
  match p.cases with
  | [] => 0
  | c :: _ => c.strength

/-- One iteration of the sequential baseline's merge loop over an ordered
pair of pallet indexes: if both pallets are still active, check the
capacity bounds against the absorbing pallet and attempt the oracle; on
success the absorbing pallet takes over and the absorbed pallet is marked
inactive (no reverse-orientation retry, no removal from the list). -/
def seqAbsorb (s : HState) (i j : Nat) (r : PackResult) : HState :=
  { store := (s.store.set i
      { getP s i with
          cases := r.packedCases
          layersMap := r.layersMap
          weight := (getP s i).weight + (getP s j).weight
          volume := (getP s i).volume + (getP s j).volume
          orderlines := (getP s i).orderlines ∪ (getP s j).orderlines }).set j
      { getP s j with active := false }
    workList := s.workList
    binding := fun t => if t ∈ (getP s j).orderlines then i else s.binding t }

def seqStep (O : Oracle) (s : HState) (pr : Nat × Nat) : HState :=
  let iP := getP s pr.1
  let jP := getP s pr.2
  if iP.active && jP.active then
    if iP.volume + jP.volume > iP.maxVolume then s
    else if iP.weight + jP.weight > iP.maxWeight then s
    else
      let r := O.packPallet iP jP
      if r.done then seqAbsorb s pr.1 pr.2 r
      else s
  else s

/-- `itertools.permutations(l, 2)`: every ordered pair of entries of `l`
at distinct positions, in lexicographic position order. -/
def ordPairs (l : List Nat) : List (Nat × Nat) :=
  (List.range l.length).flatMap fun a =>
    ((List.range l.length).filter fun b => b ≠ a).map fun b =>
      (l.getD a 0, l.getD b 0)

/-- `palletsList.sort(key=lambda i: i.cases[0].strength, reverse=True)`:
the working list sorted by decreasing strength of each pallet's first
packed case (stable). -/
def seqSorted (s0 : HState) : List Nat :=
  s0.workList.mergeSort fun a b =>
    decide (seqSortKey (getP s0 b) ≤ seqSortKey (getP s0 a))

/-- The state at the end of the pairwise merge loop of `sequential`. -/
def seqFinal (O : Oracle) (s0 : HState) : HState :=
  (ordPairs (seqSorted s0)).foldl (seqStep O) { s0 with workList := seqSorted s0 }

/-- `Solver.sequential()`: construction as in `heuristic`, then the working
list is sorted by decreasing strength of each pallet's first packed case,
every ordered pair of distinct pallets is tried once, and finally the
inactive pallets are filtered out. -/
def sequential (S : Solver) (O : Oracle) : Option (List Pallet) :=
  match buildInit S O with
  | none => none
  | some s0 =>
    let s := seqFinal O s0
    some ((s.workList.filter fun id => (getP s id).active).map fun id => getP s id)

/-- The result quadruple of `Solver.__call__`: best solution, its cost, the
iteration count, and the convergence history (`self.history`). -/
structure DriverResult where
  best : List Pallet
  bestcost : Int
  iterations : Nat
  history : List Int

/-- The iteration loop of `Solver.__call__`.  The wall-clock budget and the
randomness are external: the loop body is driven by the finite sequence
`outs` of per-iteration heuristic outcomes (solution, cost).  Each
iteration increments the counter, replaces the best solution and cost when
the new cost is strictly lower, and appends the current best cost to the
history. -/
def driverLoop : List Pallet → Int → Nat → List Int →
    List (List Pallet × Int) → DriverResult
  | best, bc, its, hist, [] => ⟨best, bc, its, hist⟩
  | best, bc, its, hist, (sol, c) :: rest =>
    if c < bc then driverLoop sol c (its + 1) (hist ++ [c]) rest
    else driverLoop best bc (its + 1) (hist ++ [bc]) rest

/-- `Solver.__call__(maxtime, betarange)`: the greedy seeding solution and
its cost come first, then the time-boxed loop consumes the iteration
outcomes; `hist0` is the content of `self.history` on entry (the deque is
created once in `__init__` and only appended to). -/
def solverCall (seed : List Pallet) (seedCost : Int) (hist0 : List Int)
    (outs : List (List Pallet × Int)) : DriverResult :=
  driverLoop seed seedCost 0 hist0 outs

lemma buildInitAux_done (S : Solver) (O : Oracle) :
    ∀ (l : List (Nat × OrderLine)) (s : HState),
      (∀ p ∈ l, (O.packLine (freshPallet S) p.1).done = true) →
      buildInitAux S O s l = some (l.foldl (addLine S O) s) := by
  intro l
  induction l with
  | nil => intro s _; rfl
  | cons p rest ih =>
    intro s h
    have hp := h p (by simp)
    simp only [buildInitAux, hp, if_true, List.foldl_cons]
    exact ih _ fun q hq => h q (List.mem_cons_of_mem _ hq)

lemma buildInitAux_fail (S : Solver) (O : Oracle) :
    ∀ (l : List (Nat × OrderLine)) (s : HState),
      (∃ p ∈ l, (O.packLine (freshPallet S) p.1).done = false) →
      buildInitAux S O s l = none := by
  intro l
  induction l with
  | nil => intro s h; simp at h
  | cons p rest ih =>
    intro s h
    by_cases hd : (O.packLine (freshPallet S) p.1).done = true
    · simp only [buildInitAux, hd, if_true]
      apply ih
      obtain ⟨q, hq, hqf⟩ := h
      rcases List.mem_cons.mp hq with rfl | hq'
      · rw [hd] at hqf; cases hqf
      · exact ⟨q, hq', hqf⟩
    · simp [buildInitAux, hd]

lemma foldl_addLine_enumFrom (S : Solver) (O : Oracle) :
    ∀ (lines : List OrderLine) (k : Nat) (s : HState), s.store.length = k →
      (List.enumFrom k lines).foldl (addLine S O) s =
        { store := s.store ++
            (List.enumFrom k lines).map fun p => initPallet S O p.1 p.2
          workList := s.workList ++ List.range' k lines.length
          binding := fun i =>
            if k ≤ i ∧ i < k + lines.length then i else s.binding i } := by
  intro lines
  induction lines with
  | nil =>
    intro k s hs
    obtain ⟨st, wl, b⟩ := s
    simp only [List.enumFrom_nil, List.foldl_nil, List.map_nil, List.append_nil,
      List.length_nil, List.range'_zero, Nat.add_zero, HState.mk.injEq,
      true_and, and_true]
    funext i
    rw [if_neg (by omega)]
  | cons a rest ih =>
    intro k s hs
    have haddL : addLine S O s (k, a) =
        { store := s.store ++ [initPallet S O k a]
          workList := s.workList ++ [k]
          binding := fun j => if j = k then k else s.binding j } := by
      simp only [addLine, initPallet, hs]
    have h1 : (List.enumFrom k (a :: rest)).foldl (addLine S O) s =
        (List.enumFrom (k + 1) rest).foldl (addLine S O)
          { store := s.store ++ [initPallet S O k a]
            workList := s.workList ++ [k]
            binding := fun j => if j = k then k else s.binding j } := by
      rw [List.enumFrom_cons, List.foldl_cons, haddL]
    rw [h1, ih (k + 1) _ (by simp [hs])]
    simp only [HState.mk.injEq]
    refine ⟨?_, ?_, ?_⟩
    · simp [List.enumFrom_cons, List.append_assoc]
    · rw [List.append_assoc, List.length_cons, List.range'_succ]
      rfl
    · funext i
      simp only [List.length_cons]
      by_cases h1 : k + 1 ≤ i ∧ i < k + 1 + rest.length
      · rw [if_pos h1, if_pos (by omega)]
      · rw [if_neg h1]
        by_cases h2 : i = k
        · subst h2
          rw [if_pos rfl, if_pos (by omega)]
        · rw [if_neg h2, if_neg (by omega)]

lemma buildInit_eq_some (S : Solver) (O : Oracle)
    (h : ∀ p ∈ S.orderlines.enum, (O.packLine (freshPallet S) p.1).done = true) :
    buildInit S O = some (initState S O) := by
  rw [buildInit, buildInitAux_done S O _ _ h]
  congr 1
  have hfold := foldl_addLine_enumFrom S O S.orderlines 0 ⟨[], [], fun _ => 0⟩ rfl
  rw [show S.orderlines.enum = List.enumFrom 0 S.orderlines from rfl]
  rw [hfold, initState]
  simp only [HState.mk.injEq, List.nil_append]
  refine ⟨rfl, (List.range_eq_range' _).symm ▸ rfl, ?_⟩
  funext i
  by_cases hi : i < S.orderlines.length
  · rw [if_pos (by omega), if_pos hi]
  · rw [if_neg (by omega), if_neg hi]

lemma buildInit_eq_none (S : Solver) (O : Oracle)
    (h : ∃ p ∈ S.orderlines.enum, (O.packLine (freshPallet S) p.1).done = false) :
    buildInit S O = none :=
  buildInitAux_fail S O _ _ h

lemma getD_set_ne (l : List Pallet) (h id : Nat) (P : Pallet) (hne : id ≠ h) :
    (l.set h P).getD id dummyPallet = l.getD id dummyPallet := by
  rw [List.getD_eq_getElem?_getD, List.getD_eq_getElem?_getD,
    List.getElem?_set_ne (Ne.symm hne)]

lemma getD_set_self (l : List Pallet) (h : Nat) (P : Pallet)
    (hlt : h < l.length) :
    (l.set h P).getD h dummyPallet = P := by
  rw [List.getD_eq_getElem?_getD, List.getElem?_set_self hlt]
  rfl

/-- Structural well-formedness of the heuristic's working state: the
working list holds distinct valid pallet indexes; every order line is bound
to a working pallet that contains it; every order line contained in a
working pallet is bound back to it (so the pallets' order-line sets are
pairwise disjoint); working pallets are nonempty and their accumulated
weight and volume are the exact sums over their order lines. -/
structure SInv (S : Solver) (s : HState) : Prop where
  nodup : s.workList.Nodup
  valid : ∀ id ∈ s.workList, id < s.store.length
  cover : ∀ i, i < S.orderlines.length →
    s.binding i ∈ s.workList ∧ i ∈ (getP s (s.binding i)).orderlines
  owner : ∀ id ∈ s.workList, ∀ i ∈ (getP s id).orderlines,
    i < S.orderlines.length ∧ s.binding i = id
  nonemp : ∀ id ∈ s.workList, (getP s id).orderlines ≠ ∅
  wsum : ∀ id ∈ s.workList,
    (getP s id).weight = ∑ i ∈ (getP s id).orderlines, lineW S i
  vsum : ∀ id ∈ s.workList,
    (getP s id).volume = ∑ i ∈ (getP s id).orderlines, lineV S i

/-- Capacity well-formedness: every working pallet respects its capacity
bounds, and all pallets carry the run's uniform capacity configuration. -/
structure CapInv (S : Solver) (s : HState) : Prop where
  wbound : ∀ id ∈ s.workList, (getP s id).weight ≤ (getP s id).maxWeight
  vbound : ∀ id ∈ s.workList, (getP s id).volume ≤ (getP s id).maxVolume
  maxes : ∀ id ∈ s.workList, (getP s id).maxWeight = S.palletMaxWeight ∧
    (getP s id).maxVolume = S.palletMaxVolume

lemma getP_initState (S : Solver) (O : Oracle) (i : Nat)
    (hi : i < S.orderlines.length) :
    getP (initState S O) i = initPallet S O i (S.orderlines.getD i dummyLine) := by
  have hlen : i < ((S.orderlines.enum.map fun p => initPallet S O p.1 p.2)).length := by
    simp [hi]
  unfold getP initState
  rw [List.getD_eq_getElem _ _ hlen]
  simp only [List.getElem_map, List.getElem_enum]
  rw [List.getD_eq_getElem _ _ hi]

lemma mem_workList_initState (S : Solver) (O : Oracle) (id : Nat) :
    id ∈ (initState S O).workList ↔ id < S.orderlines.length := by
  simp [initState]

lemma SInv_initState (S : Solver) (O : Oracle) : SInv S (initState S O) := by
  have hb : ∀ i, i < S.orderlines.length → (initState S O).binding i = i := by
    intro i hi
    simp only [initState]
    rw [if_pos hi]
  constructor
  · show (initState S O).workList.Nodup
    simp only [initState]
    exact List.nodup_range _
  · intro id hid
    rw [mem_workList_initState] at hid
    simp only [initState]
    simpa using hid
  · intro i hi
    rw [hb i hi]
    refine ⟨(mem_workList_initState S O i).mpr hi, ?_⟩
    rw [getP_initState S O i hi]
    simp [initPallet]
  · intro id hid i hin
    rw [mem_workList_initState] at hid
    rw [getP_initState S O id hid] at hin
    simp only [initPallet, Finset.mem_singleton] at hin
    subst hin
    exact ⟨hid, hb i hid⟩
  · intro id hid
    rw [mem_workList_initState] at hid
    rw [getP_initState S O id hid]
    simp [initPallet]
  · intro id hid
    rw [mem_workList_initState] at hid
    rw [getP_initState S O id hid]
    simp [initPallet, lineW]
  · intro id hid
    rw [mem_workList_initState] at hid
    rw [getP_initState S O id hid]
    simp [initPallet, lineV]

lemma CapInv_initState (S : Solver) (O : Oracle)
    (hw : ∀ line ∈ S.orderlines, line.weight ≤ S.palletMaxWeight)
    (hv : ∀ line ∈ S.orderlines, line.volume ≤ S.palletMaxVolume) :
    CapInv S (initState S O) := by
  have hmem : ∀ id, id < S.orderlines.length →
      S.orderlines.getD id dummyLine ∈ S.orderlines := by
    intro id hid
    rw [List.getD_eq_getElem _ _ hid]
    exact List.getElem_mem hid
  constructor
  · intro id hid
    rw [mem_workList_initState] at hid
    rw [getP_initState S O id hid]
    simpa [initPallet, freshPallet] using hw _ (hmem id hid)
  · intro id hid
    rw [mem_workList_initState] at hid
    rw [getP_initState S O id hid]
    simpa [initPallet, freshPallet] using hv _ (hmem id hid)
  · intro id hid
    rw [mem_workList_initState] at hid
    rw [getP_initState S O id hid]
    simp [initPallet, freshPallet]

lemma mergeInto_workList (s : HState) (h g : Nat) (r : PackResult) :
    (mergeInto s h g r).workList = s.workList.erase g := rfl

lemma mergeInto_store_length (s : HState) (h g : Nat) (r : PackResult) :
    (mergeInto s h g r).store.length = s.store.length := by
  simp [mergeInto]

lemma getP_mergeInto_ne (s : HState) (h g id : Nat) (r : PackResult)
    (hne : id ≠ h) : getP (mergeInto s h g r) id = getP s id :=
  getD_set_ne _ _ _ _ hne

lemma getP_mergeInto_self (s : HState) (h g : Nat) (r : PackResult)
    (hlt : h < s.store.length) :
    getP (mergeInto s h g r) h =
      { getP s h with
          cases := r.packedCases
          layersMap := r.layersMap
          weight := (getP s h).weight + (getP s g).weight
          volume := (getP s h).volume + (getP s g).volume
          orderlines := (getP s h).orderlines ∪ (getP s g).orderlines } :=
  getD_set_self _ _ _ hlt

lemma mergeInto_binding (s : HState) (h g : Nat) (r : PackResult) (j : Nat) :
    (mergeInto s h g r).binding j =
      if j ∈ (getP s g).orderlines then h else s.binding j := rfl

lemma SInv.disj {S : Solver} {s : HState} (hs : SInv S s) {a b : Nat}
    (ha : a ∈ s.workList) (hb : b ∈ s.workList) (hab : a ≠ b) :
    Disjoint (getP s a).orderlines (getP s b).orderlines := by
  rw [Finset.disjoint_left]
  intro i hia hib
  exact hab (((hs.owner a ha i hia).2).symm.trans ((hs.owner b hb i hib).2))

lemma SInv_mergeInto (S : Solver) (s : HState) (h g : Nat) (r : PackResult)
    (hs : SInv S s) (hh : h ∈ s.workList) (hg : g ∈ s.workList) (hne : h ≠ g) :
    SInv S (mergeInto s h g r) := by
  have hhl : h < s.store.length := hs.valid h hh
  have hP := getP_mergeInto_self s h g r hhl
  have hmem : h ∈ s.workList.erase g :=
    (List.Nodup.mem_erase_iff hs.nodup).mpr ⟨hne, hh⟩
  constructor
  · exact hs.nodup.erase g
  · intro id hid
    rw [mergeInto_store_length]
    exact hs.valid id (List.mem_of_mem_erase hid)
  · intro i hi
    by_cases hig : i ∈ (getP s g).orderlines
    · have hbi : (mergeInto s h g r).binding i = h := by
        rw [mergeInto_binding, if_pos hig]
      rw [mergeInto_workList, hbi, hP]
      exact ⟨hmem, by simp [hig]⟩
    · have hbi : (mergeInto s h g r).binding i = s.binding i := by
        rw [mergeInto_binding, if_neg hig]
      obtain ⟨hw, hin⟩ := hs.cover i hi
      have hbg : s.binding i ≠ g := by
        intro hEq
        rw [hEq] at hin
        exact hig hin
      rw [mergeInto_workList, hbi]
      refine ⟨(List.Nodup.mem_erase_iff hs.nodup).mpr ⟨hbg, hw⟩, ?_⟩
      by_cases hbh : s.binding i = h
      · rw [hbh, hP]
        rw [hbh] at hin
        simp [hin]
      · rw [getP_mergeInto_ne s h g _ r hbh]
        exact hin
  · intro id hid i hin
    have hid' : id ∈ s.workList := List.mem_of_mem_erase hid
    have hidg : id ≠ g :=
      ((List.Nodup.mem_erase_iff hs.nodup).mp (by rwa [mergeInto_workList] at hid)).1
    by_cases hidh : id = h
    · subst hidh
      rw [hP] at hin
      simp only [Finset.mem_union] at hin
      rcases hin with hin1 | hin2
      · refine ⟨(hs.owner id hid' i hin1).1, ?_⟩
        rw [mergeInto_binding]
        by_cases hig : i ∈ (getP s g).orderlines
        · rw [if_pos hig]
        · rw [if_neg hig]
          exact (hs.owner id hid' i hin1).2
      · refine ⟨(hs.owner g hg i hin2).1, ?_⟩
        rw [mergeInto_binding, if_pos hin2]
    · rw [getP_mergeInto_ne s h g _ r hidh] at hin
      obtain ⟨hi, hbi⟩ := hs.owner id hid' i hin
      refine ⟨hi, ?_⟩
      rw [mergeInto_binding]
      have hig : i ∉ (getP s g).orderlines := by
        intro hmem2
        exact hidg (hbi.symm.trans (hs.owner g hg i hmem2).2)
      rw [if_neg hig]
      exact hbi
  · intro id hid
    by_cases hidh : id = h
    · subst hidh
      rw [hP]
      have := hs.nonemp id (List.mem_of_mem_erase hid)
      simp only [ne_eq, Finset.union_eq_empty]
      intro hcon
      exact this hcon.1
    · rw [getP_mergeInto_ne s h g _ r hidh]
      exact hs.nonemp id (List.mem_of_mem_erase hid)
  · intro id hid
    by_cases hidh : id = h
    · subst hidh
      rw [hP]
      show (getP s id).weight + (getP s g).weight = _
      rw [hs.wsum id (List.mem_of_mem_erase hid), hs.wsum g hg,
        Finset.sum_union (hs.disj (List.mem_of_mem_erase hid) hg hne)]
    · rw [getP_mergeInto_ne s h g _ r hidh]
      exact hs.wsum id (List.mem_of_mem_erase hid)
  · intro id hid
    by_cases hidh : id = h
    · subst hidh
      rw [hP]
      show (getP s id).volume + (getP s g).volume = _
      rw [hs.vsum id (List.mem_of_mem_erase hid), hs.vsum g hg,
        Finset.sum_union (hs.disj (List.mem_of_mem_erase hid) hg hne)]
    · rw [getP_mergeInto_ne s h g _ r hidh]
      exact hs.vsum id (List.mem_of_mem_erase hid)

lemma CapInv_mergeInto (S : Solver) (s : HState) (h g : Nat) (r : PackResult)
    (hs : SInv S s) (hc : CapInv S s)
    (hh : h ∈ s.workList) (hg : g ∈ s.workList) (hne : h ≠ g)
    (hbw : (getP s h).weight + (getP s g).weight ≤ (getP s h).maxWeight)
    (hbv : (getP s h).volume + (getP s g).volume ≤ (getP s h).maxVolume) :
    CapInv S (mergeInto s h g r) := by
  have hhl : h < s.store.length := hs.valid h hh
  have hP := getP_mergeInto_self s h g r hhl
  constructor
  · intro id hid
    by_cases hidh : id = h
    · subst hidh
      rw [hP]
      exact hbw
    · rw [getP_mergeInto_ne s h g _ r hidh]
      exact hc.wbound id (List.mem_of_mem_erase hid)
  · intro id hid
    by_cases hidh : id = h
    · subst hidh
      rw [hP]
      exact hbv
    · rw [getP_mergeInto_ne s h g _ r hidh]
      exact hc.vbound id (List.mem_of_mem_erase hid)
  · intro id hid
    by_cases hidh : id = h
    · subst hidh
      rw [hP]
      exact hc.maxes id (List.mem_of_mem_erase hid)
    · rw [getP_mergeInto_ne s h g _ r hidh]
      exact hc.maxes id (List.mem_of_mem_erase hid)

lemma mergeStep_of_same (O : Oracle) (s : HState) (e : Edge)
    (h1 : s.binding e.origin = s.binding e.end_) :
    mergeStep O s e = s := by
  simp [mergeStep, h1]

lemma mergeStep_of_vol (O : Oracle) (s : HState) (e : Edge)
    (h1 : s.binding e.origin ≠ s.binding e.end_)
    (h2 : (getP s (s.binding e.origin)).volume + (getP s (s.binding e.end_)).volume >
      (getP s (s.binding e.origin)).maxVolume) :
    mergeStep O s e = s := by
  simp [mergeStep, h1, h2]

lemma mergeStep_of_wt (O : Oracle) (s : HState) (e : Edge)
    (h1 : s.binding e.origin ≠ s.binding e.end_)
    (h2 : ¬ ((getP s (s.binding e.origin)).volume + (getP s (s.binding e.end_)).volume >
      (getP s (s.binding e.origin)).maxVolume))
    (h3 : (getP s (s.binding e.origin)).weight + (getP s (s.binding e.end_)).weight >
      (getP s (s.binding e.origin)).maxWeight) :
    mergeStep O s e = s := by
  simp [mergeStep, h1, h2, h3]

lemma mergeStep_of_fwd (O : Oracle) (s : HState) (e : Edge)
    (h1 : s.binding e.origin ≠ s.binding e.end_)
    (h2 : ¬ ((getP s (s.binding e.origin)).volume + (getP s (s.binding e.end_)).volume >
      (getP s (s.binding e.origin)).maxVolume))
    (h3 : ¬ ((getP s (s.binding e.origin)).weight + (getP s (s.binding e.end_)).weight >
      (getP s (s.binding e.origin)).maxWeight))
    (h4 : (O.packPallet (getP s (s.binding e.origin)) (getP s (s.binding e.end_))).done = true) :
    mergeStep O s e = mergeInto s (s.binding e.origin) (s.binding e.end_)
      (O.packPallet (getP s (s.binding e.origin)) (getP s (s.binding e.end_))) := by
  simp [mergeStep, h1, h2, h3, h4]

lemma mergeStep_of_rev (O : Oracle) (s : HState) (e : Edge)
    (h1 : s.binding e.origin ≠ s.binding e.end_)
    (h2 : ¬ ((getP s (s.binding e.origin)).volume + (getP s (s.binding e.end_)).volume >
      (getP s (s.binding e.origin)).maxVolume))
    (h3 : ¬ ((getP s (s.binding e.origin)).weight + (getP s (s.binding e.end_)).weight >
      (getP s (s.binding e.origin)).maxWeight))
    (h4 : (O.packPallet (getP s (s.binding e.origin)) (getP s (s.binding e.end_))).done = false)
    (h5 : (O.packPallet (getP s (s.binding e.end_)) (getP s (s.binding e.origin))).done = true) :
    mergeStep O s e = mergeInto s (s.binding e.end_) (s.binding e.origin)
      (O.packPallet (getP s (s.binding e.end_)) (getP s (s.binding e.origin))) := by
  simp [mergeStep, h1, h2, h3, h4, h5]

lemma mergeStep_of_fail (O : Oracle) (s : HState) (e : Edge)
    (h1 : s.binding e.origin ≠ s.binding e.end_)
    (h2 : ¬ ((getP s (s.binding e.origin)).volume + (getP s (s.binding e.end_)).volume >
      (getP s (s.binding e.origin)).maxVolume))
    (h3 : ¬ ((getP s (s.binding e.origin)).weight + (getP s (s.binding e.end_)).weight >
      (getP s (s.binding e.origin)).maxWeight))
    (h4 : (O.packPallet (getP s (s.binding e.origin)) (getP s (s.binding e.end_))).done = false)
    (h5 : (O.packPallet (getP s (s.binding e.end_)) (getP s (s.binding e.origin))).done = false) :
    mergeStep O s e = s := by
  simp [mergeStep, h1, h2, h3, h4, h5]

lemma SInv_mergeStep (S : Solver) (O : Oracle) (s : HState) (e : Edge)
    (hs : SInv S s) (ho : e.origin < S.orderlines.length)
    (he : e.end_ < S.orderlines.length) :
    SInv S (mergeStep O s e) := by
  by_cases h1 : s.binding e.origin = s.binding e.end_
  · rw [mergeStep_of_same O s e h1]; exact hs
  have hh : s.binding e.origin ∈ s.workList := (hs.cover _ ho).1
  have hg : s.binding e.end_ ∈ s.workList := (hs.cover _ he).1
  by_cases h2 : (getP s (s.binding e.origin)).volume + (getP s (s.binding e.end_)).volume >
      (getP s (s.binding e.origin)).maxVolume
  · rw [mergeStep_of_vol O s e h1 h2]; exact hs
  by_cases h3 : (getP s (s.binding e.origin)).weight + (getP s (s.binding e.end_)).weight >
      (getP s (s.binding e.origin)).maxWeight
  · rw [mergeStep_of_wt O s e h1 h2 h3]; exact hs
  by_cases h4 : (O.packPallet (getP s (s.binding e.origin)) (getP s (s.binding e.end_))).done = true
  · rw [mergeStep_of_fwd O s e h1 h2 h3 h4]
    exact SInv_mergeInto S s _ _ _ hs hh hg h1
  · have h4' : (O.packPallet (getP s (s.binding e.origin)) (getP s (s.binding e.end_))).done = false :=
      Bool.not_eq_true _ ▸ (by simpa using h4)
    by_cases h5 : (O.packPallet (getP s (s.binding e.end_)) (getP s (s.binding e.origin))).done = true
    · rw [mergeStep_of_rev O s e h1 h2 h3 h4' h5]
      exact SInv_mergeInto S s _ _ _ hs hg hh (Ne.symm h1)
    · have h5' : (O.packPallet (getP s (s.binding e.end_)) (getP s (s.binding e.origin))).done = false := by
        simpa using h5
      rw [mergeStep_of_fail O s e h1 h2 h3 h4' h5']
      exact hs

lemma CapInv_mergeStep (S : Solver) (O : Oracle) (s : HState) (e : Edge)
    (hs : SInv S s) (hc : CapInv S s) (ho : e.origin < S.orderlines.length)
    (he : e.end_ < S.orderlines.length) :
    CapInv S (mergeStep O s e) := by
  by_cases h1 : s.binding e.origin = s.binding e.end_
  · rw [mergeStep_of_same O s e h1]; exact hc
  have hh : s.binding e.origin ∈ s.workList := (hs.cover _ ho).1
  have hg : s.binding e.end_ ∈ s.workList := (hs.cover _ he).1
  by_cases h2 : (getP s (s.binding e.origin)).volume + (getP s (s.binding e.end_)).volume >
      (getP s (s.binding e.origin)).maxVolume
  · rw [mergeStep_of_vol O s e h1 h2]; exact hc
  by_cases h3 : (getP s (s.binding e.origin)).weight + (getP s (s.binding e.end_)).weight >
      (getP s (s.binding e.origin)).maxWeight
  · rw [mergeStep_of_wt O s e h1 h2 h3]; exact hc
  push_neg at h2 h3
  by_cases h4 : (O.packPallet (getP s (s.binding e.origin)) (getP s (s.binding e.end_))).done = true
  · rw [mergeStep_of_fwd O s e h1 (by omega) (by omega) h4]
    exact CapInv_mergeInto S s _ _ _ hs hc hh hg h1 h3 h2
  · have h4' : (O.packPallet (getP s (s.binding e.origin)) (getP s (s.binding e.end_))).done = false := by
      simpa using h4
    by_cases h5 : (O.packPallet (getP s (s.binding e.end_)) (getP s (s.binding e.origin))).done = true
    · rw [mergeStep_of_rev O s e h1 (by omega) (by omega) h4' h5]
      have hmW := (hc.maxes _ hh).1
      have hmW' := (hc.maxes _ hg).1
      have hmV := (hc.maxes _ hh).2
      have hmV' := (hc.maxes _ hg).2
      refine CapInv_mergeInto S s _ _ _ hs hc hg hh (Ne.symm h1) ?_ ?_
      · omega
      · omega
    · have h5' : (O.packPallet (getP s (s.binding e.end_)) (getP s (s.binding e.origin))).done = false := by
        simpa using h5
      rw [mergeStep_of_fail O s e h1 (by omega) (by omega) h4' h5']
      exact hc

lemma SInv_foldl (S : Solver) (O : Oracle) :
    ∀ (es : List Edge) (s : HState), SInv S s →
      (∀ e ∈ es, e.origin < S.orderlines.length ∧ e.end_ < S.orderlines.length) →
      SInv S (es.foldl (mergeStep O) s) := by
  intro es
  induction es with
  | nil => intro s hs _; exact hs
  | cons e rest ih =>
    intro s hs hok
    rw [List.foldl_cons]
    exact ih _
      (SInv_mergeStep S O s e hs (hok e (by simp)).1 (hok e (by simp)).2)
      fun e' he' => hok e' (List.mem_cons_of_mem _ he')

lemma CapInv_foldl (S : Solver) (O : Oracle) :
    ∀ (es : List Edge) (s : HState), SInv S s → CapInv S s →
      (∀ e ∈ es, e.origin < S.orderlines.length ∧ e.end_ < S.orderlines.length) →
      CapInv S (es.foldl (mergeStep O) s) := by
  intro es
  induction es with
  | nil => intro s _ hc _; exact hc
  | cons e rest ih =>
    intro s hs hc hok
    rw [List.foldl_cons]
    exact ih _
      (SInv_mergeStep S O s e hs (hok e (by simp)).1 (hok e (by simp)).2)
      (CapInv_mergeStep S O s e hs hc (hok e (by simp)).1 (hok e (by simp)).2)
      fun e' he' => hok e' (List.mem_cons_of_mem _ he')

lemma buildInit_some_eq (S : Solver) (O : Oracle) (s0 : HState)
    (hb : buildInit S O = some s0) :
    s0 = initState S O ∧
      ∀ p ∈ S.orderlines.enum, (O.packLine (freshPallet S) p.1).done = true := by
  by_cases hd : ∀ p ∈ S.orderlines.enum, (O.packLine (freshPallet S) p.1).done = true
  · rw [buildInit_eq_some S O hd] at hb
    exact ⟨(Option.some_inj.mp hb).symm, hd⟩
  · exfalso
    push_neg at hd
    obtain ⟨p, hp, hpd⟩ := hd
    rw [buildInit_eq_none S O ⟨p, hp, by simpa using hpd⟩] at hb
    cases hb

/-- Every edge processed by the merge sweep is one of the solver's edges:
the biased selection of the sorted savings list is a permutation of it. -/
lemma mem_sweep (S : Solver) (u : Nat → Nat) (e : Edge)
    (he : e ∈ braPerm (savingsList S) u) :
    e ∈ S.edges := by
  have h1 := (braPerm_perm (savingsList S) u).mem_iff.mp he
  exact (List.mergeSort_perm S.edges _).mem_iff.mp h1

/-- The capacity bounds maintained by the sequential baseline: every active
pallet of the store respects its capacity bounds. -/
def SeqInv (s : HState) : Prop :=
  ∀ id, (getP s id).active = true →
    (getP s id).weight ≤ (getP s id).maxWeight ∧
    (getP s id).volume ≤ (getP s id).maxVolume

lemma seqStep_of_inactive (O : Oracle) (s : HState) (pr : Nat × Nat)
    (h : ((getP s pr.1).active && (getP s pr.2).active) = false) :
    seqStep O s pr = s := by
  simp [seqStep, h]

lemma seqStep_of_vol (O : Oracle) (s : HState) (pr : Nat × Nat)
    (h : ((getP s pr.1).active && (getP s pr.2).active) = true)
    (h2 : (getP s pr.1).volume + (getP s pr.2).volume > (getP s pr.1).maxVolume) :
    seqStep O s pr = s := by
  simp [seqStep, h, h2]

lemma seqStep_of_wt (O : Oracle) (s : HState) (pr : Nat × Nat)
    (h : ((getP s pr.1).active && (getP s pr.2).active) = true)
    (h2 : ¬ ((getP s pr.1).volume + (getP s pr.2).volume > (getP s pr.1).maxVolume))
    (h3 : (getP s pr.1).weight + (getP s pr.2).weight > (getP s pr.1).maxWeight) :
    seqStep O s pr = s := by
  simp [seqStep, h, h2, h3]

lemma seqStep_of_fail (O : Oracle) (s : HState) (pr : Nat × Nat)
    (h : ((getP s pr.1).active && (getP s pr.2).active) = true)
    (h2 : ¬ ((getP s pr.1).volume + (getP s pr.2).volume > (getP s pr.1).maxVolume))
    (h3 : ¬ ((getP s pr.1).weight + (getP s pr.2).weight > (getP s pr.1).maxWeight))
    (h4 : (O.packPallet (getP s pr.1) (getP s pr.2)).done = false) :
    seqStep O s pr = s := by
  simp [seqStep, h, h2, h3, h4]

lemma seqStep_of_merge (O : Oracle) (s : HState) (pr : Nat × Nat)
    (h : ((getP s pr.1).active && (getP s pr.2).active) = true)
    (h2 : ¬ ((getP s pr.1).volume + (getP s pr.2).volume > (getP s pr.1).maxVolume))
    (h3 : ¬ ((getP s pr.1).weight + (getP s pr.2).weight > (getP s pr.1).maxWeight))
    (h4 : (O.packPallet (getP s pr.1) (getP s pr.2)).done = true) :
    seqStep O s pr = seqAbsorb s pr.1 pr.2 (O.packPallet (getP s pr.1) (getP s pr.2)) := by
  simp [seqStep, h, h2, h3, h4]

lemma seqAbsorb_store_length (s : HState) (i j : Nat) (r : PackResult) :
    (seqAbsorb s i j r).store.length = s.store.length := by
  simp [seqAbsorb]

lemma getP_seqAbsorb_j (s : HState) (i j : Nat) (r : PackResult)
    (hlen : j < s.store.length) :
    getP (seqAbsorb s i j r) j = { getP s j with active := false } := by
  show ((s.store.set i _).set j _).getD j dummyPallet = _
  exact getD_set_self _ _ _ (by simpa using hlen)

lemma getP_seqAbsorb_i (s : HState) (i j : Nat) (r : PackResult)
    (hij : i ≠ j) (hlen : i < s.store.length) :
    getP (seqAbsorb s i j r) i =
      { getP s i with
          cases := r.packedCases
          layersMap := r.layersMap
          weight := (getP s i).weight + (getP s j).weight
          volume := (getP s i).volume + (getP s j).volume
          orderlines := (getP s i).orderlines ∪ (getP s j).orderlines } := by
  show ((s.store.set i _).set j _).getD i dummyPallet = _
  rw [getD_set_ne _ _ _ _ hij]
  exact getD_set_self _ _ _ hlen

lemma getP_seqAbsorb_other (s : HState) (i j id : Nat) (r : PackResult)
    (hi : id ≠ i) (hj : id ≠ j) :
    getP (seqAbsorb s i j r) id = getP s id := by
  show ((s.store.set i _).set j _).getD id dummyPallet = _
  rw [getD_set_ne _ _ _ _ hj]
  exact getD_set_ne _ _ _ _ hi

lemma getP_out_of_range (s : HState) (id : Nat) (h : s.store.length ≤ id) :
    getP s id = dummyPallet :=
  List.getD_eq_default _ _ h

lemma SeqInv_seqStep (O : Oracle) (s : HState) (pr : Nat × Nat)
    (hs : SeqInv s) : SeqInv (seqStep O s pr) := by
  by_cases h : ((getP s pr.1).active && (getP s pr.2).active) = true
  case neg =>
    rw [seqStep_of_inactive O s pr (by simpa using h)]
    exact hs
  by_cases h2 : (getP s pr.1).volume + (getP s pr.2).volume > (getP s pr.1).maxVolume
  · rw [seqStep_of_vol O s pr h h2]; exact hs
  by_cases h3 : (getP s pr.1).weight + (getP s pr.2).weight > (getP s pr.1).maxWeight
  · rw [seqStep_of_wt O s pr h h2 h3]; exact hs
  by_cases h4 : (O.packPallet (getP s pr.1) (getP s pr.2)).done = true
  case neg =>
    rw [seqStep_of_fail O s pr h h2 h3 (by simpa using h4)]
    exact hs
  rw [seqStep_of_merge O s pr h h2 h3 h4]
  intro id
  by_cases hlen : id < s.store.length
  case neg =>
    rw [getP_out_of_range _ id (by rw [seqAbsorb_store_length]; omega)]
    intro _
    exact ⟨le_refl _, le_refl _⟩
  by_cases hj : id = pr.2
  · subst hj
    rw [getP_seqAbsorb_j s pr.1 pr.2 _ hlen]
    intro hact
    cases hact
  · by_cases hi : id = pr.1
    · subst hi
      rw [getP_seqAbsorb_i s pr.1 pr.2 _ hj hlen]
      intro _
      exact ⟨by dsimp only; omega, by dsimp only; omega⟩
    · rw [getP_seqAbsorb_other s pr.1 pr.2 id _ hi hj]
      exact hs id

lemma SeqInv_foldl (O : Oracle) :
    ∀ (prs : List (Nat × Nat)) (s : HState), SeqInv s →
      SeqInv (prs.foldl (seqStep O) s) := by
  intro prs
  induction prs with
  | nil => intro s hs; exact hs
  | cons pr rest ih =>
    intro s hs
    rw [List.foldl_cons]
    exact ih _ (SeqInv_seqStep O s pr hs)

lemma SeqInv_initState (S : Solver) (O : Oracle)
    (hW : ∀ line ∈ S.orderlines, line.weight ≤ S.palletMaxWeight)
    (hV : ∀ line ∈ S.orderlines, line.volume ≤ S.palletMaxVolume) :
    SeqInv (initState S O) := by
  intro id
  by_cases hid : id < S.orderlines.length
  · rw [getP_initState S O id hid]
    intro _
    have hmem : S.orderlines.getD id dummyLine ∈ S.orderlines := by
      rw [List.getD_eq_getElem _ _ hid]
      exact List.getElem_mem hid
    constructor
    · simpa [initPallet, freshPallet] using hW _ hmem
    · simpa [initPallet, freshPallet] using hV _ hmem
  · have : getP (initState S O) id = dummyPallet := by
      apply List.getD_eq_default
      simp [initState]
      omega
    rw [this]
    intro _
    exact ⟨le_refl _, le_refl _⟩

lemma heuristic_some_inv (S : Solver) (O : Oracle) (u : Nat → Nat)
    (sol : List Pallet) (hsol : heuristic S O u = some sol) :
    ∃ s0, buildInit S O = some s0 ∧
      sol = (heurFinal S O u s0).workList.map fun id => getP (heurFinal S O u s0) id := by
  cases hb : buildInit S O with
  | none =>
    unfold heuristic at hsol
    rw [hb] at hsol
    cases hsol
  | some s0 =>
    unfold heuristic at hsol
    rw [hb] at hsol
    exact ⟨s0, rfl, (Option.some_inj.mp hsol).symm⟩

lemma sequential_some_inv (S : Solver) (O : Oracle)
    (sol : List Pallet) (hsol : sequential S O = some sol) :
    ∃ s0, buildInit S O = some s0 ∧
      sol = ((seqFinal O s0).workList.filter
          fun id => (getP (seqFinal O s0) id).active).map
        fun id => getP (seqFinal O s0) id := by
  cases hb : buildInit S O with
  | none =>
    unfold sequential at hsol
    rw [hb] at hsol
    cases hsol
  | some s0 =>
    unfold sequential at hsol
    rw [hb] at hsol
    exact ⟨s0, rfl, (Option.some_inj.mp hsol).symm⟩

/-- C1.  Capacity invariant: with a uniform pallet capacity configuration
(built into the model: every pallet is created from the run's single
configuration) and order lines that individually fit the bounds, every
pallet of a solution returned by `heuristic` (for any draw stream) or by
`sequential` has accumulated weight within `maxWeight` and accumulated
volume within `maxVolume`.  Edges are assumed to reference the run's order
lines, as the data model prescribes. -/
theorem capacity_invariant (S : Solver) (O : Oracle)
    (hW : ∀ line ∈ S.orderlines, line.weight ≤ S.palletMaxWeight)
    (hV : ∀ line ∈ S.orderlines, line.volume ≤ S.palletMaxVolume)
    (hE : ∀ e ∈ S.edges, e.origin < S.orderlines.length ∧
      e.end_ < S.orderlines.length) :
    (∀ (u : Nat → Nat) (sol : List Pallet), heuristic S O u = some sol →
      ∀ p ∈ sol, p.weight ≤ p.maxWeight ∧ p.volume ≤ p.maxVolume) ∧
    (∀ sol : List Pallet, sequential S O = some sol →
      ∀ p ∈ sol, p.weight ≤ p.maxWeight ∧ p.volume ≤ p.maxVolume) := by
  constructor
  · intro u sol hsol p hp
    obtain ⟨s0, hb, rfl⟩ := heuristic_some_inv S O u sol hsol
    obtain ⟨hinit, -⟩ := buildInit_some_eq S O s0 hb
    subst hinit
    have hok : ∀ e ∈ braPerm (savingsList S) u,
        e.origin < S.orderlines.length ∧ e.end_ < S.orderlines.length :=
      fun e he => hE e (mem_sweep S u e he)
    have hc : CapInv S (heurFinal S O u (initState S O)) :=
      CapInv_foldl S O _ _ (SInv_initState S O)
        (CapInv_initState S O hW hV) hok
    obtain ⟨id, hid, rfl⟩ := List.mem_map.mp hp
    exact ⟨hc.wbound id hid, hc.vbound id hid⟩
  · intro sol hsol p hp
    obtain ⟨s0, hb, rfl⟩ := sequential_some_inv S O sol hsol
    obtain ⟨hinit, -⟩ := buildInit_some_eq S O s0 hb
    subst hinit
    have hseq0 : SeqInv (initState S O) := SeqInv_initState S O hW hV
    have hseq : SeqInv (seqFinal O (initState S O)) :=
      SeqInv_foldl O _ _ hseq0
    obtain ⟨id, hid, rfl⟩ := List.mem_map.mp hp
    have hact := (List.mem_filter.mp hid).2
    exact hseq id (by simpa using hact)

/-- The union of the order lines hosted by the pallets of the working
list. -/
def coveredLines (s : HState) : Finset Nat :=
  s.workList.toFinset.biUnion fun id => (getP s id).orderlines

lemma coveredLines_eq_range (S : Solver) (s : HState) (hs : SInv S s) :
    coveredLines s = Finset.range S.orderlines.length := by
  ext t
  simp only [coveredLines, Finset.mem_biUnion, List.mem_toFinset, Finset.mem_range]
  constructor
  · rintro ⟨id, hid, hin⟩
    exact (hs.owner id hid t hin).1
  · intro ht
    exact ⟨s.binding t, (hs.cover t ht).1, (hs.cover t ht).2⟩

lemma dedupKeys_of_nodup : ∀ (l : List Nat), l.Nodup → dedupKeys l = l := by
  intro l
  induction l with
  | nil => intro _; simp [dedupKeys]
  | cons k ks ih =>
    intro h
    have hk : k ∉ ks := (List.nodup_cons.mp h).1
    have hks : ks.Nodup := (List.nodup_cons.mp h).2
    have hfilter : ks.filter (fun j => j ≠ k) = ks := by
      apply List.filter_eq_self.mpr
      intro a ha
      simp only [ne_eq, decide_eq_true_eq]
      intro hEq
      exact hk (hEq ▸ ha)
    simp only [dedupKeys, hfilter, ih hks]

lemma visitOrder_eq_spec (p : Pallet)
    (hnd : (p.layersMap.map Prod.fst).Nodup) :
    visitOrder p = visitOrderSpec p := by
  unfold visitOrder visitOrderSpec
  apply dedupKeys_of_nodup
  exact (((List.mergeSort_perm p.layersMap _).map Prod.fst).nodup_iff).mpr hnd

lemma palletCost_eq_spec (dists : Nat → Nat → Int) (loc : Nat → Nat) (p : Pallet)
    (hne : p.layersMap ≠ []) (hnd : (p.layersMap.map Prod.fst).Nodup) :
    palletCost dists loc p = some (palletCostSpec dists loc p) := by
  have hkeys := visitOrder_eq_spec p hnd
  unfold palletCost palletCostSpec
  rw [hkeys]
  cases h : visitOrderSpec p with
  | nil =>
    exfalso
    have h1 : sortByLayer p.layersMap = [] := by
      have h2 : (sortByLayer p.layersMap).map Prod.fst = [] := h
      exact List.map_eq_nil.mp h2
    have hperm : (sortByLayer p.layersMap).Perm p.layersMap :=
      List.mergeSort_perm _ _
    rw [h1] at hperm
    exact hne hperm.symm.eq_nil
  | cons v vs => rfl

lemma getCost_foldl (dists : Nat → Nat → Int) (loc : Nat → Nat) :
    ∀ (sol : List Pallet) (a : Int),
      (∀ p ∈ sol, p.layersMap ≠ [] ∧ (p.layersMap.map Prod.fst).Nodup) →
      sol.foldl
        (fun acc p => do
          let x ← acc
          let c ← palletCost dists loc p
          pure (x + c))
        (some a) = some (a + getCostSpec dists loc sol) := by
  intro sol
  induction sol with
  | nil => intro a _; simp [getCostSpec]
  | cons p rest ih =>
    intro a hok
    rw [List.foldl_cons]
    have hp := hok p (by simp)
    have hstep : (do
        let x ← some a
        let c ← palletCost dists loc p
        pure (x + c)) = some (a + palletCostSpec dists loc p) := by
      rw [palletCost_eq_spec dists loc p hp.1 hp.2]
      rfl
    rw [hstep, ih _ fun q hq => hok q (List.mem_cons_of_mem _ hq)]
    congr 1
    simp only [getCostSpec, List.map_cons, List.sum_cons]
    ring

lemma getCost_eq_spec (dists : Nat → Nat → Int) (loc : Nat → Nat)
    (sol : List Pallet)
    (hok : ∀ p ∈ sol, p.layersMap ≠ [] ∧ (p.layersMap.map Prod.fst).Nodup) :
    getCost dists loc sol = some (getCostSpec dists loc sol) := by
  unfold getCost
  rw [getCost_foldl dists loc sol 0 hok, zero_add]

/-- C2.  Merge conservation: a successful merge (either orientation is a
`mergeInto` with host and hosted in the working list) keeps the union of
order lines over the working list unchanged; the pallets stay pairwise
disjoint (no duplication); the surviving pallet's weight and volume are
the exact sums of the two inputs'; the absorbed pallet leaves the working
list; every order line of the absorbed pallet is repointed to the
survivor. -/
theorem merge_conservation (S : Solver) (s : HState) (h g : Nat) (r : PackResult)
    (hs : SInv S s) (hh : h ∈ s.workList) (hg : g ∈ s.workList) (hne : h ≠ g) :
    coveredLines (mergeInto s h g r) = coveredLines s ∧
    (∀ a ∈ (mergeInto s h g r).workList, ∀ b ∈ (mergeInto s h g r).workList,
      a ≠ b → Disjoint (getP (mergeInto s h g r) a).orderlines
        (getP (mergeInto s h g r) b).orderlines) ∧
    (getP (mergeInto s h g r) h).weight = (getP s h).weight + (getP s g).weight ∧
    (getP (mergeInto s h g r) h).volume = (getP s h).volume + (getP s g).volume ∧
    g ∉ (mergeInto s h g r).workList ∧
    (∀ i ∈ (getP s g).orderlines, (mergeInto s h g r).binding i = h) := by
  have hs' := SInv_mergeInto S s h g r hs hh hg hne
  have hP := getP_mergeInto_self s h g r (hs.valid h hh)
  refine ⟨?_, ?_, ?_, ?_, ?_, ?_⟩
  · rw [coveredLines_eq_range S _ hs', coveredLines_eq_range S s hs]
  · intro a ha b hb hab
    exact hs'.disj ha hb hab
  · rw [hP]
  · rw [hP]
  · rw [mergeInto_workList]
    intro hmem
    exact ((List.Nodup.mem_erase_iff hs.nodup).mp hmem).1 rfl
  · intro i hi
    rw [mergeInto_binding, if_pos hi]

/-- C3.  `getCost` equals the reference route-cost definition (sum over
pallets of depot-to-first plus last-to-depot plus consecutive distances
along the layer-sorted visiting order, ties broken by insertion order),
and for a single pallet holding one order line the cost is the depot
round trip.  `getCost` is a pure function here, hence deterministic and
side-effect free. -/
theorem getCost_reference (dists : Nat → Nat → Int) (loc : Nat → Nat)
    (sol : List Pallet)
    (hok : ∀ p ∈ sol, p.layersMap ≠ [] ∧ (p.layersMap.map Prod.fst).Nodup) :
    getCost dists loc sol = some (getCostSpec dists loc sol) ∧
    (∀ (p : Pallet) (i l : Nat), p.layersMap = [(i, l)] →
      getCost dists loc [p] = some (dists 0 (loc i) + dists (loc i) 0)) := by
  constructor
  · exact getCost_eq_spec dists loc sol hok
  · intro p i l hlm
    have hone : getCost dists loc [p] = some (0 + getCostSpec dists loc [p]) := by
      unfold getCost
      exact getCost_foldl dists loc [p] 0 (by simp [hlm])
    rw [hone]
    have hsort : sortByLayer p.layersMap = [(i, l)] := by
      rw [hlm]
      exact List.perm_singleton.mp (List.mergeSort_perm _ _)
    have hvs : visitOrderSpec p = [i] := by
      unfold visitOrderSpec
      rw [hsort]
      rfl
    simp only [getCostSpec, List.map_cons, List.map_nil, List.sum_cons,
      List.sum_nil, palletCostSpec, hvs]
    norm_num [adjSum]

/-- C5.  The biased selector yields a permutation of its input for every
bias and every draw stream: exactly as many elements as the input, each
element with its input multiplicity (no duplicates, no omissions), and
nothing for an empty input. -/
theorem bra_permutation {α : Type} [Inhabited α] [DecidableEq α]
    (arr : List α) (u : Nat → Nat) :
    (braPerm arr u).Perm arr ∧ (braPerm arr u).length = arr.length ∧
    (∀ x : α, (braPerm arr u).count x = arr.count x) ∧
    braPerm ([] : List α) u = [] := by
  have h := braPerm_perm arr u
  exact ⟨h, h.length_eq, fun x => h.count_eq x, rfl⟩

/-- C8.  Failed-merge atomicity: when the forward orientation of a drawn
edge fails, exactly one retry happens with host and hosted swapped — if
it succeeds the merge is the swapped `mergeInto`, and if it also fails
the state (both pallets, every order-line binding, and the working list)
is completely unchanged and the sweep moves on. -/
theorem failed_merge_atomicity (O : Oracle) (s : HState) (e : Edge)
    (h1 : s.binding e.origin ≠ s.binding e.end_)
    (h2 : ¬ ((getP s (s.binding e.origin)).volume + (getP s (s.binding e.end_)).volume >
      (getP s (s.binding e.origin)).maxVolume))
    (h3 : ¬ ((getP s (s.binding e.origin)).weight + (getP s (s.binding e.end_)).weight >
      (getP s (s.binding e.origin)).maxWeight))
    (h4 : (O.packPallet (getP s (s.binding e.origin)) (getP s (s.binding e.end_))).done = false) :
    ((O.packPallet (getP s (s.binding e.end_)) (getP s (s.binding e.origin))).done = true →
      mergeStep O s e = mergeInto s (s.binding e.end_) (s.binding e.origin)
        (O.packPallet (getP s (s.binding e.end_)) (getP s (s.binding e.origin)))) ∧
    ((O.packPallet (getP s (s.binding e.end_)) (getP s (s.binding e.origin))).done = false →
      mergeStep O s e = s) :=
  ⟨fun h5 => mergeStep_of_rev O s e h1 h2 h3 h4 h5,
   fun h5 => mergeStep_of_fail O s e h1 h2 h3 h4 h5⟩

/-- C9.  Fatal precondition: if the oracle fails to pack some order line
into a fresh empty pallet during construction, `heuristic` (for every
draw stream) and `sequential` abort with no solution instead of
returning a truncated one. -/
theorem fatal_precondition (S : Solver) (O : Oracle)
    (h : ∃ i, i < S.orderlines.length ∧
      (O.packLine (freshPallet S) i).done = false) :
    (∀ u : Nat → Nat, heuristic S O u = none) ∧ sequential S O = none := by
  obtain ⟨i, hi, hf⟩ := h
  have hlen : i < S.orderlines.enum.length := by simpa using hi
  have hmem : (i, S.orderlines.get ⟨i, hi⟩) ∈ S.orderlines.enum := by
    have hpair := List.getElem_enum S.orderlines i hlen
    have hmm := List.getElem_mem hlen
    rw [hpair] at hmm
    simpa using hmm
  have hnone := buildInit_eq_none S O ⟨(i, S.orderlines.get ⟨i, hi⟩), hmem, hf⟩
  constructor
  · intro u
    unfold heuristic
    rw [hnone]
  · unfold sequential
    rw [hnone]

/-- C6.  Selection law of `_bra`: at each step with `k` elements left, the
yielded element sits at index `floor(log(u, 1 - beta)) mod k` of the
remaining pool (0-indexed) and is removed; the raw log-based index is
bounded by the modulo (wraparound, not clamping), and for draws in (0,1)
the raw index is exactly the floor of the base-(1-beta) logarithm. -/
theorem bra_selection_law {α : Type} [Inhabited α] (beta : ℝ) (arr : List α)
    (us : Nat → ℝ) (hb0 : 0 < beta) (hb1 : beta < 1)
    (hu0 : 0 < us 0) (hu1 : us 0 < 1) (hne : arr ≠ []) :
    braPermR beta arr us =
      arr.getD (braDraw beta (us 0) % arr.length) default ::
        braPermR beta (arr.eraseIdx (braDraw beta (us 0) % arr.length))
          (fun n => us (n + 1)) ∧
    (braDraw beta (us 0) : ℤ) = ⌊Real.logb (1 - beta) (us 0)⌋ := by
  constructor
  · obtain ⟨k, hk⟩ : ∃ k, arr.length = k + 1 := by
      cases arr with
      | nil => exact absurd rfl hne
      | cons a t => exact ⟨t.length, rfl⟩
    exact braPermAux_eq_cons arr (fun n => braDraw beta (us n)) k hk
  · have h1b0 : (0 : ℝ) < 1 - beta := by linarith
    have h1b1 : 1 - beta < 1 := by linarith
    have hlogb : Real.log (1 - beta) < 0 := Real.log_neg h1b0 h1b1
    have hlogu : Real.log (us 0) < 0 := Real.log_neg hu0 hu1
    have hnn : 0 ≤ Real.logb (1 - beta) (us 0) := by
      rw [Real.logb]
      exact le_of_lt (div_pos_of_neg_of_neg hlogu hlogb)
    exact Int.toNat_of_nonneg (Int.floor_nonneg.mpr hnn)

/-- The sequence of best costs recorded in the history by the driver loop:
the running minimum of the seed cost and the iteration costs. -/
def recordedBests : Int → List Int → List Int
  | _, [] => []
  | bc, c :: cs => min c bc :: recordedBests (min c bc) cs

lemma driverLoop_hist_append :
    ∀ (outs : List (List Pallet × Int)) (best : List Pallet) (bc : Int)
      (its : Nat) (h1 h2 : List Int),
      (driverLoop best bc its (h1 ++ h2) outs).history =
        h1 ++ (driverLoop best bc its h2 outs).history := by
  intro outs
  induction outs with
  | nil => intro best bc its h1 h2; rfl
  | cons o rest ih =>
    intro best bc its h1 h2
    obtain ⟨sol, c⟩ := o
    show (if c < bc then driverLoop sol c (its + 1) (h1 ++ h2 ++ [c]) rest
        else driverLoop best bc (its + 1) (h1 ++ h2 ++ [bc]) rest).history =
      h1 ++ (if c < bc then driverLoop sol c (its + 1) (h2 ++ [c]) rest
        else driverLoop best bc (its + 1) (h2 ++ [bc]) rest).history
    by_cases hlt : c < bc
    · rw [if_pos hlt, if_pos hlt, List.append_assoc]
      exact ih sol c (its + 1) h1 (h2 ++ [c])
    · rw [if_neg hlt, if_neg hlt, List.append_assoc]
      exact ih best bc (its + 1) h1 (h2 ++ [bc])

lemma driverLoop_hist :
    ∀ (outs : List (List Pallet × Int)) (best : List Pallet) (bc : Int) (its : Nat),
      (driverLoop best bc its [] outs).history =
        recordedBests bc (outs.map Prod.snd) := by
  intro outs
  induction outs with
  | nil => intro best bc its; rfl
  | cons o rest ih =>
    intro best bc its
    obtain ⟨sol, c⟩ := o
    show (if c < bc then driverLoop sol c (its + 1) ([] ++ [c]) rest
        else driverLoop best bc (its + 1) ([] ++ [bc]) rest).history = _
    by_cases hlt : c < bc
    · rw [if_pos hlt]
      have h := driverLoop_hist_append rest sol c (its + 1) [c] []
      rw [List.append_nil] at h
      rw [List.nil_append, h, ih sol c (its + 1)]
      have hmin : min c bc = c := min_eq_left (le_of_lt hlt)
      simp only [List.map_cons, recordedBests, hmin, List.singleton_append]
    · rw [if_neg hlt]
      have h := driverLoop_hist_append rest best bc (its + 1) [bc] []
      rw [List.append_nil] at h
      rw [List.nil_append, h, ih best bc (its + 1)]
      have hmin : min c bc = bc := min_eq_right (le_of_not_lt hlt)
      simp only [List.map_cons, recordedBests, hmin, List.singleton_append]

lemma driverLoop_iterations :
    ∀ (outs : List (List Pallet × Int)) (best : List Pallet) (bc : Int)
      (its : Nat) (h : List Int),
      (driverLoop best bc its h outs).iterations = its + outs.length := by
  intro outs
  induction outs with
  | nil => intro best bc its h; rfl
  | cons o rest ih =>
    intro best bc its h
    obtain ⟨sol, c⟩ := o
    show (if c < bc then driverLoop sol c (its + 1) (h ++ [c]) rest
        else driverLoop best bc (its + 1) (h ++ [bc]) rest).iterations = _
    by_cases hlt : c < bc
    · rw [if_pos hlt, ih]
      simp [Nat.add_assoc, Nat.add_comm]
      omega
    · rw [if_neg hlt, ih]
      simp [Nat.add_assoc, Nat.add_comm]
      omega

lemma driverLoop_bestcost :
    ∀ (outs : List (List Pallet × Int)) (best : List Pallet) (bc : Int)
      (its : Nat) (h : List Int),
      (driverLoop best bc its h outs).bestcost = (outs.map Prod.snd).foldl min bc := by
  intro outs
  induction outs with
  | nil => intro best bc its h; rfl
  | cons o rest ih =>
    intro best bc its h
    obtain ⟨sol, c⟩ := o
    show (if c < bc then driverLoop sol c (its + 1) (h ++ [c]) rest
        else driverLoop best bc (its + 1) (h ++ [bc]) rest).bestcost = _
    simp only [List.map_cons, List.foldl_cons]
    by_cases hlt : c < bc
    · rw [if_pos hlt, ih, min_eq_right (le_of_lt hlt)]
    · rw [if_neg hlt, ih, min_eq_left (le_of_not_lt hlt)]

lemma driverLoop_best_of_no_improve :
    ∀ (outs : List (List Pallet × Int)) (best : List Pallet) (bc : Int)
      (its : Nat) (h : List Int),
      (∀ c ∈ outs.map Prod.snd, bc ≤ c) →
      (driverLoop best bc its h outs).best = best ∧
        (driverLoop best bc its h outs).bestcost = bc := by
  intro outs
  induction outs with
  | nil => intro best bc its h _; exact ⟨rfl, rfl⟩
  | cons o rest ih =>
    intro best bc its h hno
    obtain ⟨sol, c⟩ := o
    have hc : bc ≤ c := hno c (by simp)
    show (if c < bc then driverLoop sol c (its + 1) (h ++ [c]) rest
        else driverLoop best bc (its + 1) (h ++ [bc]) rest).best = best ∧
      (if c < bc then driverLoop sol c (its + 1) (h ++ [c]) rest
        else driverLoop best bc (its + 1) (h ++ [bc]) rest).bestcost = bc
    rw [if_neg (not_lt.mpr hc)]
    exact ih best bc (its + 1) (h ++ [bc])
      fun c' hc' => hno c' (by simp [hc'])

lemma recordedBests_length (cs : List Int) :
    ∀ bc : Int, (recordedBests bc cs).length = cs.length := by
  induction cs with
  | nil => intro bc; rfl
  | cons c rest ih =>
    intro bc
    simp only [recordedBests, List.length_cons, ih]

lemma recordedBests_chain (cs : List Int) :
    ∀ bc : Int, List.Chain' (fun x y => y ≤ x) (bc :: recordedBests bc cs) := by
  induction cs with
  | nil =>
    intro bc
    show List.Chain' _ [bc]
    exact List.chain'_singleton _
  | cons c rest ih =>
    intro bc
    simp only [recordedBests]
    rw [List.chain'_cons]
    exact ⟨min_le_right c bc, ih (min c bc)⟩

/-- C7.  Search-driver monotonicity: within one `__call__` the loop
appends exactly one entry per iteration (so the history grows by the
iteration count), the appended best costs form a non-increasing sequence
dominated by the seeding cost (they are the running minimum of the seed
cost and the per-iteration costs), the final best cost is that minimum,
and the best solution and cost are replaced only on a strict improvement:
when no iteration cost beats the seed, both are unchanged. -/
theorem driver_monotonicity (seed : List Pallet) (sc : Int) (hist0 : List Int)
    (outs : List (List Pallet × Int)) :
    (solverCall seed sc hist0 outs).history =
      hist0 ++ recordedBests sc (outs.map Prod.snd) ∧
    (recordedBests sc (outs.map Prod.snd)).length = outs.length ∧
    List.Chain' (fun x y => y ≤ x) (sc :: recordedBests sc (outs.map Prod.snd)) ∧
    (solverCall seed sc hist0 outs).bestcost = (outs.map Prod.snd).foldl min sc ∧
    ((∀ c ∈ outs.map Prod.snd, sc ≤ c) →
      (solverCall seed sc hist0 outs).best = seed ∧
      (solverCall seed sc hist0 outs).bestcost = sc) := by
  refine ⟨?_, ?_, ?_, ?_, ?_⟩
  · have h := driverLoop_hist_append outs seed sc 0 hist0 []
    rw [List.append_nil] at h
    unfold solverCall
    rw [h, driverLoop_hist outs seed sc 0]
  · rw [recordedBests_length, List.length_map]
  · exact recordedBests_chain _ sc
  · exact driverLoop_bestcost outs seed sc 0 hist0
  · exact fun hno => driverLoop_best_of_no_improve outs seed sc 0 hist0 hno

/-- C10.  History persistence: `__call__` only appends to `self.history`
(the part present on entry survives as a prefix), the number of appended
entries equals the returned iteration count, the seeding solution's cost
itself is not appended (a zero-iteration call returns the history
unchanged), so histories of consecutive calls accumulate. -/
theorem history_persistence (seed : List Pallet) (sc : Int) (hist0 : List Int)
    (outs : List (List Pallet × Int)) :
    (solverCall seed sc hist0 outs).history =
      hist0 ++ (solverCall seed sc [] outs).history ∧
    (solverCall seed sc [] outs).history.length =
      (solverCall seed sc hist0 outs).iterations ∧
    solverCall seed sc hist0 [] = ⟨seed, sc, 0, hist0⟩ := by
  refine ⟨?_, ?_, rfl⟩
  · have h := driverLoop_hist_append outs seed sc 0 hist0 []
    rw [List.append_nil] at h
    exact h
  · unfold solverCall
    rw [driverLoop_hist outs seed sc 0, driverLoop_iterations outs seed sc 0 hist0,
      recordedBests_length, List.length_map, Nat.zero_add]

/-- A small concrete instance used to exercise the theorems: two order
lines at locations 1 and 2. -/
def sampleLines : List OrderLine :=
  [{ weight := 2, volume := 3, location := 1 },
   { weight := 1, volume := 2, location := 2 }]

def sampleEdges : List Edge :=
  [{ origin := 0, end_ := 1, saving := 5 },
   { origin := 1, end_ := 0, saving := 4 }]

def sampleSolver : Solver :=
  { orderlines := sampleLines
    edges := sampleEdges
    palletMaxVolume := 100
    palletMaxWeight := 100 }

/-- An always-succeeding oracle that concatenates case lists and layer
maps. -/
def sampleOracle : Oracle :=
  { packLine := fun _ i => ⟨true, [{ strength := 1 }], [(i, 0)]⟩
    packPallet := fun p q => ⟨true, p.cases ++ q.cases, p.layersMap ++ q.layersMap⟩ }

/-- An oracle that always reports failure. -/
def failOracle : Oracle :=
  { packLine := fun _ _ => ⟨false, [], []⟩
    packPallet := fun _ _ => ⟨false, [], []⟩ }

/-- The working state right after construction on the sample instance. -/
def sampleState : HState := initState sampleSolver sampleOracle

def samplePack : PackResult := ⟨true, [], []⟩

theorem capacity_invariant_witness :
    (∀ line ∈ sampleSolver.orderlines, line.weight ≤ sampleSolver.palletMaxWeight) ∧
    (∀ line ∈ sampleSolver.orderlines, line.volume ≤ sampleSolver.palletMaxVolume) ∧
    (∀ e ∈ sampleSolver.edges, e.origin < sampleSolver.orderlines.length ∧
      e.end_ < sampleSolver.orderlines.length) ∧
    ((∀ (u : Nat → Nat) (sol : List Pallet),
        heuristic sampleSolver sampleOracle u = some sol →
        ∀ p ∈ sol, p.weight ≤ p.maxWeight ∧ p.volume ≤ p.maxVolume) ∧
     (∀ sol : List Pallet, sequential sampleSolver sampleOracle = some sol →
        ∀ p ∈ sol, p.weight ≤ p.maxWeight ∧ p.volume ≤ p.maxVolume)) :=
  ⟨by decide, by decide, by decide,
    capacity_invariant sampleSolver sampleOracle (by decide) (by decide) (by decide)⟩

theorem merge_conservation_witness :
    0 ∈ sampleState.workList ∧ 1 ∈ sampleState.workList ∧ (0 : Nat) ≠ 1 ∧
    (coveredLines (mergeInto sampleState 0 1 samplePack) = coveredLines sampleState ∧
     (∀ a ∈ (mergeInto sampleState 0 1 samplePack).workList,
       ∀ b ∈ (mergeInto sampleState 0 1 samplePack).workList,
       a ≠ b → Disjoint (getP (mergeInto sampleState 0 1 samplePack) a).orderlines
         (getP (mergeInto sampleState 0 1 samplePack) b).orderlines) ∧
     (getP (mergeInto sampleState 0 1 samplePack) 0).weight =
       (getP sampleState 0).weight + (getP sampleState 1).weight ∧
     (getP (mergeInto sampleState 0 1 samplePack) 0).volume =
       (getP sampleState 0).volume + (getP sampleState 1).volume ∧
     1 ∉ (mergeInto sampleState 0 1 samplePack).workList ∧
     (∀ i ∈ (getP sampleState 1).orderlines,
       (mergeInto sampleState 0 1 samplePack).binding i = 0)) :=
  ⟨by decide, by decide, by decide,
    merge_conservation sampleSolver sampleState 0 1 samplePack
      (SInv_initState sampleSolver sampleOracle) (by decide) (by decide) (by decide)⟩

/-- A sample pallet with a two-entry layer map, and sample distance and
location tables. -/
def samplePallet : Pallet :=
  { maxVolume := 100, maxWeight := 100, weight := 3, volume := 5
    orderlines := {0, 1}, cases := [], layersMap := [(1, 1), (0, 0)] }

def sampleDists : Nat → Nat → Int := fun a b => (a : Int) + 2 * (b : Int)

def sampleLoc : Nat → Nat := fun i => i + 1

theorem getCost_reference_witness :
    (∀ p ∈ [samplePallet], p.layersMap ≠ [] ∧ (p.layersMap.map Prod.fst).Nodup) ∧
    (getCost sampleDists sampleLoc [samplePallet] =
      some (getCostSpec sampleDists sampleLoc [samplePallet]) ∧
     (∀ (p : Pallet) (i l : Nat), p.layersMap = [(i, l)] →
       getCost sampleDists sampleLoc [p] =
         some (sampleDists 0 (sampleLoc i) + sampleDists (sampleLoc i) 0))) :=
  ⟨by decide,
    getCost_reference sampleDists sampleLoc [samplePallet] (by decide)⟩

theorem bra_selection_law_witness :
    (0 : ℝ) < 1 / 2 ∧ (1 : ℝ) / 2 < 1 ∧ (0 : ℝ) < 1 / 4 ∧ (1 : ℝ) / 4 < 1 ∧
    ([10, 20, 30] : List Nat) ≠ [] ∧
    (braPermR (1 / 2) [10, 20, 30] (fun _ => 1 / 4) =
      [10, 20, 30].getD (braDraw (1 / 2) (1 / 4) % [10, 20, 30].length) default ::
        braPermR (1 / 2) ([10, 20, 30].eraseIdx
          (braDraw (1 / 2) (1 / 4) % [10, 20, 30].length)) (fun _ => 1 / 4) ∧
     (braDraw (1 / 2) (1 / 4) : ℤ) = ⌊Real.logb (1 - 1 / 2) (1 / 4)⌋) :=
  ⟨by norm_num, by norm_num, by norm_num, by norm_num, by decide,
    bra_selection_law (1 / 2) [10, 20, 30] (fun _ => 1 / 4)
      (by norm_num) (by norm_num) (by norm_num) (by norm_num) (by decide)⟩

theorem failed_merge_atomicity_witness :
    sampleState.binding (sampleEdges.get ⟨0, by decide⟩).origin ≠
      sampleState.binding (sampleEdges.get ⟨0, by decide⟩).end_ ∧
    ((failOracle.packPallet
        (getP sampleState (sampleState.binding (sampleEdges.get ⟨0, by decide⟩).end_))
        (getP sampleState (sampleState.binding (sampleEdges.get ⟨0, by decide⟩).origin))).done = false →
      mergeStep failOracle sampleState (sampleEdges.get ⟨0, by decide⟩) = sampleState) :=
  ⟨by decide,
    (failed_merge_atomicity failOracle sampleState (sampleEdges.get ⟨0, by decide⟩)
      (by decide) (by decide) (by decide) (by decide)).2⟩

theorem fatal_precondition_witness :
    (∃ i, i < sampleSolver.orderlines.length ∧
      (failOracle.packLine (freshPallet sampleSolver) i).done = false) ∧
    ((∀ u : Nat → Nat, heuristic sampleSolver failOracle u = none) ∧
      sequential sampleSolver failOracle = none) :=
  ⟨⟨0, by decide, rfl⟩,
    fatal_precondition sampleSolver failOracle ⟨0, by decide, rfl⟩⟩

lemma mem_orderlines_iff_binding (S : Solver) (s : HState) (hs : SInv S s)
    (g : Nat) (hg : g ∈ s.workList) (t : Nat) (ht : t < S.orderlines.length) :
    t ∈ (getP s g).orderlines ↔ s.binding t = g :=
  ⟨fun h => (hs.owner g hg t h).2, fun h => h ▸ (hs.cover t ht).2⟩

lemma mergeInto_binding_eq (S : Solver) (s : HState) (hs : SInv S s)
    (h g : Nat) (hg : g ∈ s.workList) (r : PackResult)
    (t : Nat) (ht : t < S.orderlines.length) :
    (mergeInto s h g r).binding t =
      if s.binding t = g then h else s.binding t := by
  rw [mergeInto_binding]
  by_cases hmem : t ∈ (getP s g).orderlines
  · rw [if_pos hmem, if_pos ((mem_orderlines_iff_binding S s hs g hg t ht).mp hmem)]
  · rw [if_neg hmem,
      if_neg fun hEq => hmem ((mem_orderlines_iff_binding S s hs g hg t ht).mpr hEq)]

lemma mergeStep_preserves_joined (S : Solver) (O : Oracle) (s : HState) (e : Edge)
    (hs : SInv S s) (ho : e.origin < S.orderlines.length)
    (he : e.end_ < S.orderlines.length)
    (i j : Nat) (hi : i < S.orderlines.length) (hj : j < S.orderlines.length)
    (hij : s.binding i = s.binding j) :
    (mergeStep O s e).binding i = (mergeStep O s e).binding j := by
  by_cases h1 : s.binding e.origin = s.binding e.end_
  · rw [mergeStep_of_same O s e h1, hij]
  have hh : s.binding e.origin ∈ s.workList := (hs.cover _ ho).1
  have hg : s.binding e.end_ ∈ s.workList := (hs.cover _ he).1
  by_cases h2 : (getP s (s.binding e.origin)).volume + (getP s (s.binding e.end_)).volume >
      (getP s (s.binding e.origin)).maxVolume
  · rw [mergeStep_of_vol O s e h1 h2, hij]
  by_cases h3 : (getP s (s.binding e.origin)).weight + (getP s (s.binding e.end_)).weight >
      (getP s (s.binding e.origin)).maxWeight
  · rw [mergeStep_of_wt O s e h1 h2 h3, hij]
  by_cases h4 : (O.packPallet (getP s (s.binding e.origin)) (getP s (s.binding e.end_))).done = true
  · rw [mergeStep_of_fwd O s e h1 h2 h3 h4,
      mergeInto_binding_eq S s hs _ _ hg _ i hi,
      mergeInto_binding_eq S s hs _ _ hg _ j hj, hij]
  · have h4' : (O.packPallet (getP s (s.binding e.origin)) (getP s (s.binding e.end_))).done = false := by
      simpa using h4
    by_cases h5 : (O.packPallet (getP s (s.binding e.end_)) (getP s (s.binding e.origin))).done = true
    · rw [mergeStep_of_rev O s e h1 h2 h3 h4' h5,
        mergeInto_binding_eq S s hs _ _ hh _ i hi,
        mergeInto_binding_eq S s hs _ _ hh _ j hj, hij]
    · have h5' : (O.packPallet (getP s (s.binding e.end_)) (getP s (s.binding e.origin))).done = false := by
        simpa using h5
      rw [mergeStep_of_fail O s e h1 h2 h3 h4' h5', hij]

lemma orderlines_subset_range (S : Solver) (s : HState) (hs : SInv S s)
    (id : Nat) (hid : id ∈ s.workList) :
    (getP s id).orderlines ⊆ Finset.range S.orderlines.length := by
  intro t ht
  exact Finset.mem_range.mpr (hs.owner id hid t ht).1

lemma mergeStep_joins (S : Solver) (O : Oracle) (s : HState) (e : Edge)
    (hs : SInv S s) (hc : CapInv S s)
    (ho : e.origin < S.orderlines.length) (he : e.end_ < S.orderlines.length)
    (hOP : ∀ p q : Pallet, (O.packPallet p q).done = true)
    (hWnn : ∀ i, i < S.orderlines.length → 0 ≤ lineW S i)
    (hVnn : ∀ i, i < S.orderlines.length → 0 ≤ lineV S i)
    (hWcap : (∑ i ∈ Finset.range S.orderlines.length, lineW S i) ≤ S.palletMaxWeight)
    (hVcap : (∑ i ∈ Finset.range S.orderlines.length, lineV S i) ≤ S.palletMaxVolume) :
    (mergeStep O s e).binding e.origin = (mergeStep O s e).binding e.end_ := by
  by_cases h1 : s.binding e.origin = s.binding e.end_
  · rw [mergeStep_of_same O s e h1, h1]
  have hh : s.binding e.origin ∈ s.workList := (hs.cover _ ho).1
  have hg : s.binding e.end_ ∈ s.workList := (hs.cover _ he).1
  have hdisj := hs.disj hh hg h1
  have hsub : (getP s (s.binding e.origin)).orderlines ∪
      (getP s (s.binding e.end_)).orderlines ⊆ Finset.range S.orderlines.length :=
    Finset.union_subset (orderlines_subset_range S s hs _ hh)
      (orderlines_subset_range S s hs _ hg)
  have hvol : (getP s (s.binding e.origin)).volume + (getP s (s.binding e.end_)).volume ≤
      (getP s (s.binding e.origin)).maxVolume := by
    rw [hs.vsum _ hh, hs.vsum _ hg, ← Finset.sum_union hdisj, (hc.maxes _ hh).2]
    calc (∑ i ∈ (getP s (s.binding e.origin)).orderlines ∪
          (getP s (s.binding e.end_)).orderlines, lineV S i)
        ≤ ∑ i ∈ Finset.range S.orderlines.length, lineV S i :=
          Finset.sum_le_sum_of_subset_of_nonneg hsub
            fun i hi _ => hVnn i (Finset.mem_range.mp hi)
      _ ≤ S.palletMaxVolume := hVcap
  have hwt : (getP s (s.binding e.origin)).weight + (getP s (s.binding e.end_)).weight ≤
      (getP s (s.binding e.origin)).maxWeight := by
    rw [hs.wsum _ hh, hs.wsum _ hg, ← Finset.sum_union hdisj, (hc.maxes _ hh).1]
    calc (∑ i ∈ (getP s (s.binding e.origin)).orderlines ∪
          (getP s (s.binding e.end_)).orderlines, lineW S i)
        ≤ ∑ i ∈ Finset.range S.orderlines.length, lineW S i :=
          Finset.sum_le_sum_of_subset_of_nonneg hsub
            fun i hi _ => hWnn i (Finset.mem_range.mp hi)
      _ ≤ S.palletMaxWeight := hWcap
  rw [mergeStep_of_fwd O s e h1 (by omega) (by omega) (hOP _ _),
    mergeInto_binding_eq S s hs _ _ hg _ e.origin ho,
    mergeInto_binding_eq S s hs _ _ hg _ e.end_ he,
    if_neg h1, if_pos rfl]

lemma foldl_preserves_joined (S : Solver) (O : Oracle) :
    ∀ (es : List Edge) (s : HState), SInv S s →
      (∀ e ∈ es, e.origin < S.orderlines.length ∧ e.end_ < S.orderlines.length) →
      ∀ i j, i < S.orderlines.length → j < S.orderlines.length →
        s.binding i = s.binding j →
        (es.foldl (mergeStep O) s).binding i = (es.foldl (mergeStep O) s).binding j := by
  intro es
  induction es with
  | nil => intro s _ _ i j _ _ hij; exact hij
  | cons e rest ih =>
    intro s hs hok i j hi hj hij
    rw [List.foldl_cons]
    exact ih (mergeStep O s e)
      (SInv_mergeStep S O s e hs (hok e (by simp)).1 (hok e (by simp)).2)
      (fun e' he' => hok e' (List.mem_cons_of_mem _ he')) i j hi hj
      (mergeStep_preserves_joined S O s e hs (hok e (by simp)).1 (hok e (by simp)).2
        i j hi hj hij)

lemma foldl_joins (S : Solver) (O : Oracle)
    (hOP : ∀ p q : Pallet, (O.packPallet p q).done = true)
    (hWnn : ∀ i, i < S.orderlines.length → 0 ≤ lineW S i)
    (hVnn : ∀ i, i < S.orderlines.length → 0 ≤ lineV S i)
    (hWcap : (∑ i ∈ Finset.range S.orderlines.length, lineW S i) ≤ S.palletMaxWeight)
    (hVcap : (∑ i ∈ Finset.range S.orderlines.length, lineV S i) ≤ S.palletMaxVolume) :
    ∀ (es : List Edge) (s : HState), SInv S s → CapInv S s →
      (∀ e ∈ es, e.origin < S.orderlines.length ∧ e.end_ < S.orderlines.length) →
      ∀ e ∈ es, (es.foldl (mergeStep O) s).binding e.origin =
        (es.foldl (mergeStep O) s).binding e.end_ := by
  intro es
  induction es with
  | nil => intro s _ _ _ e he; cases he
  | cons e0 rest ih =>
    intro s hs hc hok e he
    have ho0 := (hok e0 (by simp)).1
    have he0 := (hok e0 (by simp)).2
    have hs' : SInv S (mergeStep O s e0) := SInv_mergeStep S O s e0 hs ho0 he0
    have hc' : CapInv S (mergeStep O s e0) := CapInv_mergeStep S O s e0 hs hc ho0 he0
    have hok' : ∀ e' ∈ rest, e'.origin < S.orderlines.length ∧
        e'.end_ < S.orderlines.length :=
      fun e' he' => hok e' (List.mem_cons_of_mem _ he')
    rw [List.foldl_cons]
    rcases List.mem_cons.mp he with rfl | he'
    · exact foldl_preserves_joined S O rest (mergeStep O s e) hs' hok'
        e.origin e.end_ (hok e (by simp)).1 (hok e (by simp)).2
        (mergeStep_joins S O s e hs hc (hok e (by simp)).1 (hok e (by simp)).2
          hOP hWnn hVnn hWcap hVcap)
    · exact ih (mergeStep O s e0) hs' hc' hok' e he'

lemma workList_singleton_of_all_joined (S : Solver) (s : HState) (hs : SInv S s)
    (hn : 0 < S.orderlines.length)
    (hall : ∀ i j, i < S.orderlines.length → j < S.orderlines.length →
      s.binding i = s.binding j) :
    s.workList = [s.binding 0] := by
  have hmem : s.binding 0 ∈ s.workList := (hs.cover 0 hn).1
  have hall' : ∀ id ∈ s.workList, id = s.binding 0 := by
    intro id hid
    obtain ⟨t, ht⟩ := Finset.nonempty_iff_ne_empty.mpr (hs.nonemp id hid)
    obtain ⟨ht1, ht2⟩ := hs.owner id hid t ht
    rw [← ht2]
    exact hall t 0 ht1 hn
  cases hwl : s.workList with
  | nil =>
    rw [hwl] at hmem
    cases hmem
  | cons a l =>
    have ha : a = s.binding 0 := hall' a (by rw [hwl]; simp)
    have hl : l = [] := by
      cases hlc : l with
      | nil => rfl
      | cons b m =>
        exfalso
        have hb : b = s.binding 0 := hall' b (by rw [hwl, hlc]; simp)
        have hnd := hs.nodup
        rw [hwl, hlc] at hnd
        have := (List.nodup_cons.mp hnd).1
        rw [ha, hb] at this
        exact this (by simp)
    rw [ha, hl]

/-- Layer-assignment sanity carried through the sweep: every working
pallet's layer map is nonempty with distinct keys (true whenever the
oracle produces such maps, as a mapping over the packed order lines is). -/
def LmInv (s : HState) : Prop :=
  ∀ id ∈ s.workList, (getP s id).layersMap ≠ [] ∧
    ((getP s id).layersMap.map Prod.fst).Nodup

lemma LmInv_initState (S : Solver) (O : Oracle)
    (hlmL : ∀ (p : Pallet) (i : Nat), (O.packLine p i).layersMap ≠ [] ∧
      ((O.packLine p i).layersMap.map Prod.fst).Nodup) :
    LmInv (initState S O) := by
  intro id hid
  rw [mem_workList_initState] at hid
  rw [getP_initState S O id hid]
  exact hlmL _ _

lemma LmInv_mergeStep (S : Solver) (O : Oracle) (s : HState) (e : Edge)
    (hs : SInv S s) (hlm : LmInv s)
    (ho : e.origin < S.orderlines.length) (he : e.end_ < S.orderlines.length)
    (hlmP : ∀ p q : Pallet, (O.packPallet p q).layersMap ≠ [] ∧
      ((O.packPallet p q).layersMap.map Prod.fst).Nodup) :
    LmInv (mergeStep O s e) := by
  have hmain : ∀ (h g : Nat) (r : PackResult), h ∈ s.workList → g ∈ s.workList →
      r.layersMap ≠ [] ∧ (r.layersMap.map Prod.fst).Nodup →
      LmInv (mergeInto s h g r) := by
    intro h g r hh _ hr id hid
    by_cases hidh : id = h
    · subst hidh
      rw [getP_mergeInto_self s id g r (hs.valid id hh)]
      exact hr
    · rw [getP_mergeInto_ne s h g _ r hidh]
      exact hlm id (List.mem_of_mem_erase hid)
  by_cases h1 : s.binding e.origin = s.binding e.end_
  · rw [mergeStep_of_same O s e h1]; exact hlm
  have hh : s.binding e.origin ∈ s.workList := (hs.cover _ ho).1
  have hg : s.binding e.end_ ∈ s.workList := (hs.cover _ he).1
  by_cases h2 : (getP s (s.binding e.origin)).volume + (getP s (s.binding e.end_)).volume >
      (getP s (s.binding e.origin)).maxVolume
  · rw [mergeStep_of_vol O s e h1 h2]; exact hlm
  by_cases h3 : (getP s (s.binding e.origin)).weight + (getP s (s.binding e.end_)).weight >
      (getP s (s.binding e.origin)).maxWeight
  · rw [mergeStep_of_wt O s e h1 h2 h3]; exact hlm
  by_cases h4 : (O.packPallet (getP s (s.binding e.origin)) (getP s (s.binding e.end_))).done = true
  · rw [mergeStep_of_fwd O s e h1 h2 h3 h4]
    exact hmain _ _ _ hh hg (hlmP _ _)
  · have h4' : (O.packPallet (getP s (s.binding e.origin)) (getP s (s.binding e.end_))).done = false := by
      simpa using h4
    by_cases h5 : (O.packPallet (getP s (s.binding e.end_)) (getP s (s.binding e.origin))).done = true
    · rw [mergeStep_of_rev O s e h1 h2 h3 h4' h5]
      exact hmain _ _ _ hg hh (hlmP _ _)
    · have h5' : (O.packPallet (getP s (s.binding e.end_)) (getP s (s.binding e.origin))).done = false := by
        simpa using h5
      rw [mergeStep_of_fail O s e h1 h2 h3 h4' h5']
      exact hlm

lemma LmInv_foldl (S : Solver) (O : Oracle)
    (hlmP : ∀ p q : Pallet, (O.packPallet p q).layersMap ≠ [] ∧
      ((O.packPallet p q).layersMap.map Prod.fst).Nodup) :
    ∀ (es : List Edge) (s : HState), SInv S s → LmInv s →
      (∀ e ∈ es, e.origin < S.orderlines.length ∧ e.end_ < S.orderlines.length) →
      LmInv (es.foldl (mergeStep O) s) := by
  intro es
  induction es with
  | nil => intro s _ hlm _; exact hlm
  | cons e rest ih =>
    intro s hs hlm hok
    rw [List.foldl_cons]
    exact ih (mergeStep O s e)
      (SInv_mergeStep S O s e hs (hok e (by simp)).1 (hok e (by simp)).2)
      (LmInv_mergeStep S O s e hs hlm (hok e (by simp)).1 (hok e (by simp)).2 hlmP)
      fun e' he' => hok e' (List.mem_cons_of_mem _ he')

/-- C4.  End-to-end scenario: four order lines at locations 1..4 (depot 0),
an edge with positive saving between every pair, capacity large enough for
all four together, and an always-succeeding oracle.  For every draw stream
consumed by the biased selector (β only shapes the distribution of the
draws), `heuristic` returns exactly one pallet holding all four order
lines, and `getCost` of that solution is the depot round trip plus the
Hamiltonian-path cost along the visiting order derived from the layer
assignment. -/
theorem end_to_end_scenario (S : Solver) (O : Oracle)
    (dists : Nat → Nat → Int) (loc : Nat → Nat) (u : Nat → Nat)
    (hn : S.orderlines.length = 4)
    (hloc : ∀ i, i < 4 → (S.orderlines.getD i dummyLine).location = i + 1)
    (hWnn : ∀ i, i < S.orderlines.length → 0 ≤ lineW S i)
    (hVnn : ∀ i, i < S.orderlines.length → 0 ≤ lineV S i)
    (hWcap : (∑ i ∈ Finset.range S.orderlines.length, lineW S i) ≤ S.palletMaxWeight)
    (hVcap : (∑ i ∈ Finset.range S.orderlines.length, lineV S i) ≤ S.palletMaxVolume)
    (hE : ∀ e ∈ S.edges, e.origin < S.orderlines.length ∧
      e.end_ < S.orderlines.length)
    (hEpos : ∀ e ∈ S.edges, 0 < e.saving)
    (hcover : ∀ i, i < 4 → ∀ j, j < 4 → i ≠ j →
      ∃ e ∈ S.edges, (e.origin = i ∧ e.end_ = j) ∨ (e.origin = j ∧ e.end_ = i))
    (hOL : ∀ (p : Pallet) (i : Nat), (O.packLine p i).done = true)
    (hOP : ∀ p q : Pallet, (O.packPallet p q).done = true)
    (hlmL : ∀ (p : Pallet) (i : Nat), (O.packLine p i).layersMap ≠ [] ∧
      ((O.packLine p i).layersMap.map Prod.fst).Nodup)
    (hlmP : ∀ p q : Pallet, (O.packPallet p q).layersMap ≠ [] ∧
      ((O.packPallet p q).layersMap.map Prod.fst).Nodup) :
    ∃ (p : Pallet) (v : Nat) (vs : List Nat),
      heuristic S O u = some [p] ∧
      p.orderlines = Finset.range 4 ∧
      visitOrder p = v :: vs ∧
      getCost dists loc [p] =
        some (dists 0 (loc v) +
          dists (loc ((v :: vs).getLast (List.cons_ne_nil v vs))) 0 +
          adjSum dists loc (v :: vs)) := by
  have hpos : 0 < S.orderlines.length := by omega
  have hfitW : ∀ line ∈ S.orderlines, line.weight ≤ S.palletMaxWeight := by
    intro line hline
    obtain ⟨i, hi, hEq⟩ := List.mem_iff_getElem.mp hline
    have h1 : lineW S i = line.weight := by
      rw [lineW, List.getD_eq_getElem _ _ hi, hEq]
    rw [← h1]
    calc lineW S i ≤ ∑ k ∈ Finset.range S.orderlines.length, lineW S k :=
        Finset.single_le_sum (fun k hk => hWnn k (Finset.mem_range.mp hk))
          (Finset.mem_range.mpr hi)
      _ ≤ _ := hWcap
  have hfitV : ∀ line ∈ S.orderlines, line.volume ≤ S.palletMaxVolume := by
    intro line hline
    obtain ⟨i, hi, hEq⟩ := List.mem_iff_getElem.mp hline
    have h1 : lineV S i = line.volume := by
      rw [lineV, List.getD_eq_getElem _ _ hi, hEq]
    rw [← h1]
    calc lineV S i ≤ ∑ k ∈ Finset.range S.orderlines.length, lineV S k :=
        Finset.single_le_sum (fun k hk => hVnn k (Finset.mem_range.mp hk))
          (Finset.mem_range.mpr hi)
      _ ≤ _ := hVcap
  have hb : buildInit S O = some (initState S O) :=
    buildInit_eq_some S O fun p _ => hOL _ _
  have hok : ∀ e ∈ braPerm (savingsList S) u,
      e.origin < S.orderlines.length ∧ e.end_ < S.orderlines.length :=
    fun e he => hE e (mem_sweep S u e he)
  set sf := heurFinal S O u (initState S O) with hsf
  have hsI : SInv S sf := SInv_foldl S O _ _ (SInv_initState S O) hok
  have hcI : CapInv S sf :=
    CapInv_foldl S O _ _ (SInv_initState S O)
      (CapInv_initState S O hfitW hfitV) hok
  have hlmI : LmInv sf :=
    LmInv_foldl S O hlmP _ _ (SInv_initState S O) (LmInv_initState S O hlmL) hok
  have hjoin : ∀ e ∈ braPerm (savingsList S) u,
      sf.binding e.origin = sf.binding e.end_ :=
    foldl_joins S O hOP hWnn hVnn hWcap hVcap _ _ (SInv_initState S O)
      (CapInv_initState S O hfitW hfitV) hok
  have hjoinEdges : ∀ e ∈ S.edges, sf.binding e.origin = sf.binding e.end_ := by
    intro e he
    apply hjoin
    exact (braPerm_perm (savingsList S) u).mem_iff.mpr
      ((List.mergeSort_perm S.edges _).mem_iff.mpr he)
  have hall : ∀ i j, i < S.orderlines.length → j < S.orderlines.length →
      sf.binding i = sf.binding j := by
    intro i j hi hj
    by_cases hij : i = j
    · rw [hij]
    · obtain ⟨e, he, hor⟩ := hcover i (by omega) j (by omega) hij
      rcases hor with ⟨ho1, ho2⟩ | ⟨ho1, ho2⟩
      · have hj2 := hjoinEdges e he
        rw [ho1, ho2] at hj2
        exact hj2
      · have hj2 := hjoinEdges e he
        rw [ho1, ho2] at hj2
        exact hj2.symm
  have hsingle : sf.workList = [sf.binding 0] :=
    workList_singleton_of_all_joined S sf hsI hpos hall
  have hmem0 : sf.binding 0 ∈ sf.workList := (hsI.cover 0 hpos).1
  have hheur0 : heuristic S O u = some (sf.workList.map fun id => getP sf id) := by
    rw [hsf]
    unfold heuristic
    rw [hb]
  have hheur : heuristic S O u = some [getP sf (sf.binding 0)] := by
    rw [hheur0, hsingle]
    rfl
  have hord : (getP sf (sf.binding 0)).orderlines = Finset.range 4 := by
    rw [← hn]
    ext t
    simp only [Finset.mem_range]
    constructor
    · intro htin
      exact (hsI.owner _ hmem0 t htin).1
    · intro ht
      have hc2 := (hsI.cover t ht).2
      rwa [hall t 0 ht hpos] at hc2
  obtain ⟨hlm1, hlm2⟩ := hlmI _ hmem0
  obtain ⟨v, vs, hvo⟩ : ∃ v vs, visitOrder (getP sf (sf.binding 0)) = v :: vs := by
    cases hmf : (sortByLayer (getP sf (sf.binding 0)).layersMap).map Prod.fst with
    | nil =>
      exfalso
      have hsort0 : sortByLayer (getP sf (sf.binding 0)).layersMap = [] :=
        List.map_eq_nil_iff.mp hmf
      have hperm : (sortByLayer (getP sf (sf.binding 0)).layersMap).Perm
          (getP sf (sf.binding 0)).layersMap := List.mergeSort_perm _ _
      rw [hsort0] at hperm
      exact hlm1 hperm.symm.eq_nil
    | cons k ks =>
      refine ⟨k, dedupKeys (ks.filter fun j => j ≠ k), ?_⟩
      unfold visitOrder
      rw [hmf]
      simp [dedupKeys]
  have hvseq : visitOrderSpec (getP sf (sf.binding 0)) = v :: vs := by
    rw [← visitOrder_eq_spec _ hlm2]
    exact hvo
  have hpc : palletCostSpec dists loc (getP sf (sf.binding 0)) =
      dists 0 (loc v) +
        dists (loc ((v :: vs).getLast (List.cons_ne_nil v vs))) 0 +
        adjSum dists loc (v :: vs) := by
    unfold palletCostSpec
    rw [hvseq]
  have hcost0 : getCost dists loc [getP sf (sf.binding 0)] =
      some (0 + getCostSpec dists loc [getP sf (sf.binding 0)]) := by
    apply getCost_foldl dists loc _ 0
    intro q hq
    rw [List.mem_singleton.mp hq]
    exact ⟨hlm1, hlm2⟩
  have hcost : getCost dists loc [getP sf (sf.binding 0)] =
      some (dists 0 (loc v) +
        dists (loc ((v :: vs).getLast (List.cons_ne_nil v vs))) 0 +
        adjSum dists loc (v :: vs)) := by
    rw [hcost0]
    congr 1
    simp only [getCostSpec, List.map_cons, List.map_nil, List.sum_cons,
      List.sum_nil, hpc]
    ring
  exact ⟨getP sf (sf.binding 0), v, vs, hheur, hord, hvo, hcost⟩

/-- The concrete end-to-end scenario: four unit order lines at locations
1..4. -/
def scenarioLines : List OrderLine :=
  [{ weight := 1, volume := 1, location := 1 },
   { weight := 1, volume := 1, location := 2 },
   { weight := 1, volume := 1, location := 3 },
   { weight := 1, volume := 1, location := 4 }]

def scenarioEdges : List Edge :=
  [{ origin := 0, end_ := 1, saving := 6 },
   { origin := 0, end_ := 2, saving := 5 },
   { origin := 0, end_ := 3, saving := 4 },
   { origin := 1, end_ := 2, saving := 3 },
   { origin := 1, end_ := 3, saving := 2 },
   { origin := 2, end_ := 3, saving := 1 }]

def scenarioSolver : Solver :=
  { orderlines := scenarioLines
    edges := scenarioEdges
    palletMaxVolume := 10
    palletMaxWeight := 10 }

/-- An always-succeeding oracle producing a fixed valid layer map on
merges. -/
def scenarioOracle : Oracle :=
  { packLine := fun _ i => ⟨true, [{ strength := 1 }], [(i, 0)]⟩
    packPallet := fun _ _ => ⟨true, [{ strength := 1 }], [(0, 0)]⟩ }

theorem end_to_end_scenario_witness :
    scenarioSolver.orderlines.length = 4 ∧
    (∑ i ∈ Finset.range scenarioSolver.orderlines.length, lineW scenarioSolver i) ≤
      scenarioSolver.palletMaxWeight ∧
    (∀ i, i < 4 → ∀ j, j < 4 → i ≠ j → ∃ e ∈ scenarioSolver.edges,
      (e.origin = i ∧ e.end_ = j) ∨ (e.origin = j ∧ e.end_ = i)) ∧
    (∃ (p : Pallet) (v : Nat) (vs : List Nat),
      heuristic scenarioSolver scenarioOracle (fun _ => 0) = some [p] ∧
      p.orderlines = Finset.range 4 ∧
      visitOrder p = v :: vs ∧
      getCost sampleDists sampleLoc [p] =
        some (sampleDists 0 (sampleLoc v) +
          sampleDists (sampleLoc ((v :: vs).getLast (List.cons_ne_nil v vs))) 0 +
          adjSum sampleDists sampleLoc (v :: vs))) :=
  ⟨by decide, by decide, by decide,
    end_to_end_scenario scenarioSolver scenarioOracle sampleDists sampleLoc
      (fun _ => 0) (by decide) (by decide) (by decide) (by decide) (by decide)
      (by decide) (by decide) (by decide) (by decide)
      (fun _ _ => rfl) (fun _ _ => rfl)
      (fun _ i => ⟨by simp [scenarioOracle], by simp [scenarioOracle]⟩)
      (fun _ _ => ⟨by simp [scenarioOracle], by simp [scenarioOracle]⟩)⟩

end CasePicking
